import Mathlib

/-!
Verification of the reference-counted smart pointer in
source/smart_pointer/smart_pointer.hpp.

The C++ code consists of two classes:

* PtrCounter: an unsigned int counter (member m_counter, initialized to 0)
  with increment and decrement operators (ordinary unsigned arithmetic,
  so decrement of 0 wraps modulo 2^32), a reset, and a get.

* SmartPointer<Type>: holds a Type* resource_ and a PtrCounter* m_counter.
  - explicit SmartPointer(Type* resource = nullptr): stores the resource,
    heap-allocates a fresh PtrCounter (value 0) and increments it iff
    the resource is non-null.
  - ~SmartPointer(): decrements the counter; if get() == 0 afterwards,
    deletes the counter and the resource.
  - operator=(const SmartPointer&): if resource_ == other.resource_ and
    m_counter == other.m_counter, returns immediately.  Otherwise
    decrements the current counter, deletes counter and resource if the
    count reached 0, then adopts other's resource_ and m_counter and
    increments the adopted counter iff the adopted resource is non-null.
  - operator=(Type*): decrements the current counter, deletes counter and
    resource if the count reached 0, then stores the raw pointer with a
    freshly allocated counter, incremented to 1 iff non-null.
  - SmartPointer(const SmartPointer&): aliases other's resource_ and
    m_counter and increments the counter unconditionally.
  - GetPointer, GetReferenceCount: accessors.
  - Detach(): empty body.

We embed this as a state machine: the heap of live PtrCounter objects is an
association list from counter ids to values, the set of live SmartPointer
objects is an association list from handle ids to (resource, counter id)
pairs, and each public operation of the C++ class becomes a step of an
operation relation.  Counter values follow unsigned int arithmetic
(modulo 2^32).  Freed counters and freed non-null resources are logged so
that release events are observable.  A step that dereferences a pointer to
a counter that has already been deleted (undefined behavior in C++)
returns none.
-/

namespace SmartPtr

/-- Modulus of the C++ unsigned int counter (32-bit). -/
def WORD : Nat := 4294967296

/-- PtrCounter::operator++ : m_counter++, unsigned arithmetic mod 2^32. -/
def ctrInc (v : Nat) : Nat := (v + 1) % WORD

/-- PtrCounter::operator-- : m_counter--, unsigned arithmetic mod 2^32
(decrementing 0 wraps to 2^32 - 1). -/
def ctrDec (v : Nat) : Nat := (v + (WORD - 1)) % WORD

/-- The data members of SmartPointer<Type>: the resource pointer
(none models nullptr, some r models the address r of a heap object)
and the address of the shared PtrCounter. -/
structure Handle where
  resource_ : Option Nat
  m_counter : Nat
deriving DecidableEq

/-- The global state: the live SmartPointer objects (by handle id), the
live PtrCounter objects (counter id to value), a fresh-address supply,
and logs of deleted counters and deleted non-null resources. -/
structure State where
  handles : List (Nat × Handle)
  counters : List (Nat × Nat)
  next : Nat
  freedCounters : List Nat
  freedResources : List Nat
deriving DecidableEq

/-- The empty initial state: no live handles, no live counters. -/
def initState : State := ⟨[], [], 0, [], []⟩

/-- Lookup by key in an association list. -/
def lookupk (k : Nat) : List (Nat × α) → Option α
  | [] => none
  | p :: l => if p.1 = k then some p.2 else lookupk k l

/-- Remove every entry with the given key from an association list. -/
def erasek (k : Nat) : List (Nat × α) → List (Nat × α)
  | [] => []
  | p :: l => if p.1 = k then erasek k l else p :: erasek k l

/-- The keys of an association list. -/
def keysOf (l : List (Nat × α)) : List Nat := l.map Prod.fst

/-- Number of live handles whose m_counter points at counter id c. -/
def ptrCount (c : Nat) : List (Nat × Handle) → Nat
  | [] => 0
  | p :: l => (if p.2.m_counter = c then 1 else 0) + ptrCount c l

/-- Number of live handles pointing at counter id c whose resource is
non-null. -/
def ptrCountNN (c : Nat) : List (Nat × Handle) → Nat
  | [] => 0
  | p :: l =>
    (if p.2.m_counter = c ∧ p.2.resource_.isSome = true then 1 else 0) + ptrCountNN c l

/-- The public lifecycle operations of SmartPointer<Type>.  The first
argument of construct and copyConstruct is the (fresh) id of the handle
being created; resources are passed as optional addresses. -/
inductive Op where
  | construct (h : Nat) (res : Option Nat)
  | copyConstruct (h : Nat) (src : Nat)
  | copyAssign (dst : Nat) (src : Nat)
  | rawAssign (dst : Nat) (res : Option Nat)
  | destruct (h : Nat)
  | detach (h : Nat)
deriving DecidableEq

/-- The release step shared by the destructor and both assignment
operators: (*m_counter)--; if (m_counter->get() == 0) { delete m_counter;
delete resource_; }.  c is the handle's counter address and res its
resource; none is returned when the counter has already been deleted
(dereferencing it is undefined behavior). -/
def releaseStep (s : State) (c : Nat) (res : Option Nat) : Option State :=
  match lookupk c s.counters with
  | none => none
  | some v =>
    if ctrDec v = 0 then
      some { s with counters := erasek c s.counters,
                    freedCounters := c :: s.freedCounters,
                    freedResources :=
                      match res with
                      | some r => r :: s.freedResources
                      | none => s.freedResources }
    else
      some { s with counters := (c, ctrDec v) :: erasek c s.counters }

/-- One lifecycle operation, following the C++ member functions line by
line.  none models undefined behavior (using a dead handle id, reusing a
live id for a new object, or dereferencing a deleted counter). -/
def step (s : State) : Op → Option State
  | .construct h res =>
    if h ∈ keysOf s.handles then none
    else
      some { s with
               handles := (h, ⟨res, s.next⟩) :: s.handles,
               counters := (s.next, if res.isSome then 1 else 0) :: s.counters,
               next := s.next + 1 }
  | .copyConstruct h src =>
    if h ∈ keysOf s.handles then none
    else
      match lookupk src s.handles with
      | none => none
      | some o =>
        match lookupk o.m_counter s.counters with
        | none => none
        | some v =>
          some { s with
                   handles := (h, o) :: s.handles,
                   counters := (o.m_counter, ctrInc v) :: erasek o.m_counter s.counters }
  | .copyAssign dst src =>
    match lookupk dst s.handles, lookupk src s.handles with
    | some d, some o =>
      if d.resource_ = o.resource_ ∧ d.m_counter = o.m_counter then some s
      else
        match releaseStep s d.m_counter d.resource_ with
        | none => none
        | some s1 =>
          if o.resource_.isSome then
            match lookupk o.m_counter s1.counters with
            | none => none
            | some w =>
              some { s1 with
                       handles := (dst, o) :: erasek dst s1.handles,
                       counters := (o.m_counter, ctrInc w) :: erasek o.m_counter s1.counters }
          else some { s1 with handles := (dst, o) :: erasek dst s1.handles }
    | _, _ => none
  | .rawAssign dst res =>
    match lookupk dst s.handles with
    | none => none
    | some d =>
      match releaseStep s d.m_counter d.resource_ with
      | none => none
      | some s1 =>
        some { s1 with
                 handles := (dst, ⟨res, s1.next⟩) :: erasek dst s1.handles,
                 counters := (s1.next, if res.isSome then 1 else 0) :: s1.counters,
                 next := s1.next + 1 }
  | .destruct h =>
    match lookupk h s.handles with
    | none => none
    | some d =>
      match releaseStep s d.m_counter d.resource_ with
      | none => none
      | some s1 => some { s1 with handles := erasek h s1.handles }
  | .detach h =>
    match lookupk h s.handles with
    | none => none
    | some _ => some s

/-- Run a sequence of lifecycle operations. -/
def run (s : State) : List Op → Option State
  | [] => some s
  | op :: rest =>
    match step s op with
    | none => none
    | some s1 => run s1 rest

/-- SmartPointer::GetPointer() of the given handle (outer none: dead
handle id). -/
def GetPointer (s : State) (h : Nat) : Option (Option Nat) :=
  (lookupk h s.handles).map Handle.resource_

/-- SmartPointer::GetReferenceCount() of the given handle (none: dead
handle or dereference of a deleted counter). -/
def GetReferenceCount (s : State) (h : Nat) : Option Nat :=
  match lookupk h s.handles with
  | none => none
  | some d => lookupk d.m_counter s.counters

/-- Structural invariant preserved by every operation: live counter
addresses and counter references of live handles lie below the fresh
address supply, and no two live objects share an address. -/
structure GInv (s : State) : Prop where
  freshc : ∀ p ∈ s.counters, p.1 < s.next
  freshh : ∀ p ∈ s.handles, p.2.m_counter < s.next
  nodh : (keysOf s.handles).Nodup
  nodc : (keysOf s.counters).Nodup

/-- The reference-counting invariant exactly as the specification words it:
the count of every counter with at least one live handle pointing at it
equals the number of live handles pointing at it whose resource is
non-null (a handle holding a null resource is not counted). -/
def specCountInvariant (s : State) : Prop :=
  ∀ c v, lookupk c s.counters = some v →
    0 < ptrCount c s.handles → v = ptrCountNN c s.handles

/-- An operation that introduces no null resource: constructions and raw
assignments take a non-null pointer (copies only propagate existing
resources). -/
def Op.nonNull : Op → Prop
  | .construct _ res => res.isSome = true
  | .rawAssign _ res => res.isSome = true
  | _ => True

/-- Aliasing invariant: live handles sharing one counter share the same
resource pointer (handles acquire a counter either freshly or together
with its resource). -/
def SInv (s : State) : Prop :=
  ∀ p ∈ s.handles, ∀ q ∈ s.handles,
    p.2.m_counter = q.2.m_counter → p.2.resource_ = q.2.resource_

/-- Counting invariant of non-null traces: the value of every live counter
equals the number of live handles pointing at it; all live handles hold
non-null resources, and handles sharing one counter share the resource. -/
structure NInv (s : State) : Prop where
  hnn : ∀ p ∈ s.handles, p.2.resource_.isSome = true
  cnt : ∀ p ∈ s.counters, p.2 = ptrCount p.1 s.handles
  same : ∀ p ∈ s.handles, ∀ q ∈ s.handles,
    p.2.m_counter = q.2.m_counter → p.2.resource_ = q.2.resource_

/-! ### Association-list lemmas -/

theorem lookupk_nil (k : Nat) : lookupk k ([] : List (Nat × α)) = none := rfl

theorem lookupk_cons (k : Nat) (p : Nat × α) (l : List (Nat × α)) :
    lookupk k (p :: l) = if p.1 = k then some p.2 else lookupk k l := rfl

theorem erasek_nil (k : Nat) : erasek k ([] : List (Nat × α)) = [] := rfl

theorem erasek_cons (k : Nat) (p : Nat × α) (l : List (Nat × α)) :
    erasek k (p :: l) = if p.1 = k then erasek k l else p :: erasek k l := rfl

theorem ptrCount_nil (c : Nat) : ptrCount c [] = 0 := rfl

theorem ptrCount_cons (c : Nat) (p : Nat × Handle) (l : List (Nat × Handle)) :
    ptrCount c (p :: l) = (if p.2.m_counter = c then 1 else 0) + ptrCount c l := rfl

theorem mem_of_lookupk {l : List (Nat × α)} {k : Nat} {v : α}
    (h : lookupk k l = some v) : (k, v) ∈ l := by
  induction l with
  | nil => simp [lookupk] at h
  | cons p t ih =>
    by_cases hk : p.1 = k
    · rw [lookupk_cons, if_pos hk] at h
      have hv : p.2 = v := Option.some.inj h
      have hp : p = (k, v) := by
        calc p = (p.1, p.2) := rfl
          _ = (k, v) := by rw [hk, hv]
      rw [← hp]
      exact List.mem_cons_self p t
    · rw [lookupk_cons, if_neg hk] at h
      exact List.mem_cons_of_mem _ (ih h)

theorem mem_keysOf_of_lookupk {l : List (Nat × α)} {k : Nat} {v : α}
    (h : lookupk k l = some v) : k ∈ keysOf l := by
  have := mem_of_lookupk h
  exact List.mem_map_of_mem Prod.fst this

theorem lookupk_eq_none {l : List (Nat × α)} {k : Nat}
    (h : k ∉ keysOf l) : lookupk k l = none := by
  induction l with
  | nil => rfl
  | cons p t ih =>
    rw [keysOf, List.map_cons, List.mem_cons, not_or] at h
    rw [lookupk_cons, if_neg (fun hh => h.1 hh.symm)]
    exact ih h.2

theorem lookupk_eq_some_of_mem {l : List (Nat × α)}
    (nd : (keysOf l).Nodup) {k : Nat} {v : α} (h : (k, v) ∈ l) :
    lookupk k l = some v := by
  induction l with
  | nil => simp at h
  | cons p t ih =>
    rw [keysOf, List.map_cons, List.nodup_cons] at nd
    rcases List.mem_cons.1 h with h1 | h1
    · rw [← h1, lookupk_cons, if_pos rfl]
    · have hk : k ∈ keysOf t := List.mem_map_of_mem Prod.fst h1
      have hne : p.1 ≠ k := fun he => nd.1 (he ▸ hk)
      rw [lookupk_cons, if_neg hne]
      exact ih nd.2 h1

theorem lookupk_erasek_self (l : List (Nat × α)) (k : Nat) :
    lookupk k (erasek k l) = none := by
  induction l with
  | nil => rfl
  | cons p t ih =>
    by_cases hk : p.1 = k
    · rw [erasek_cons, if_pos hk]; exact ih
    · rw [erasek_cons, if_neg hk, lookupk_cons, if_neg hk]; exact ih

theorem lookupk_erasek_ne (l : List (Nat × α)) {k k1 : Nat} (h : k1 ≠ k) :
    lookupk k1 (erasek k l) = lookupk k1 l := by
  induction l with
  | nil => rfl
  | cons p t ih =>
    by_cases hk : p.1 = k
    · have hne : p.1 ≠ k1 := fun he => h (by rw [← he, hk])
      rw [erasek_cons, if_pos hk, ih, lookupk_cons, if_neg hne]
    · rw [erasek_cons, if_neg hk, lookupk_cons, lookupk_cons]
      by_cases h1 : p.1 = k1
      · rw [if_pos h1, if_pos h1]
      · rw [if_neg h1, if_neg h1, ih]

theorem mem_erasek {l : List (Nat × α)} {p : Nat × α} {k : Nat} :
    p ∈ erasek k l ↔ p ∈ l ∧ p.1 ≠ k := by
  induction l with
  | nil => simp [erasek]
  | cons q t ih =>
    by_cases hk : q.1 = k
    · rw [erasek_cons, if_pos hk, ih]
      constructor
      · rintro ⟨h1, h2⟩; exact ⟨List.mem_cons_of_mem _ h1, h2⟩
      · rintro ⟨h1, h2⟩
        rcases List.mem_cons.1 h1 with h3 | h3
        · exact absurd (h3 ▸ hk) h2
        · exact ⟨h3, h2⟩
    · rw [erasek_cons, if_neg hk]
      constructor
      · intro h1
        rcases List.mem_cons.1 h1 with h3 | h3
        · exact ⟨h3 ▸ List.mem_cons_self q t, h3 ▸ hk⟩
        · exact ⟨List.mem_cons_of_mem _ (ih.1 h3).1, (ih.1 h3).2⟩
      · rintro ⟨h1, h2⟩
        rcases List.mem_cons.1 h1 with h3 | h3
        · exact h3 ▸ List.mem_cons_self q _
        · exact List.mem_cons_of_mem _ (ih.2 ⟨h3, h2⟩)

theorem not_mem_keysOf_erasek_self (l : List (Nat × α)) (k : Nat) :
    k ∉ keysOf (erasek k l) := by
  intro h
  obtain ⟨p, hp, he⟩ := List.mem_map.1 h
  exact (mem_erasek.1 hp).2 he

theorem mem_keysOf_erasek {l : List (Nat × α)} {k k1 : Nat}
    (h : k1 ∈ keysOf (erasek k l)) : k1 ∈ keysOf l := by
  obtain ⟨p, hp, he⟩ := List.mem_map.1 h
  exact he ▸ List.mem_map_of_mem Prod.fst (mem_erasek.1 hp).1

theorem nodup_keysOf_erasek {l : List (Nat × α)} (k : Nat)
    (nd : (keysOf l).Nodup) : (keysOf (erasek k l)).Nodup := by
  induction l with
  | nil => exact List.nodup_nil
  | cons p t ih =>
    rw [keysOf, List.map_cons, List.nodup_cons] at nd
    by_cases hk : p.1 = k
    · rw [erasek_cons, if_pos hk]; exact ih nd.2
    · rw [erasek_cons, if_neg hk, keysOf, List.map_cons, List.nodup_cons]
      exact ⟨fun h => nd.1 (mem_keysOf_erasek h), ih nd.2⟩

theorem erasek_eq_self {l : List (Nat × α)} {k : Nat}
    (h : k ∉ keysOf l) : erasek k l = l := by
  induction l with
  | nil => rfl
  | cons p t ih =>
    rw [keysOf, List.map_cons, List.mem_cons, not_or] at h
    rw [erasek_cons, if_neg (fun he => h.1 he.symm), ih h.2]

theorem length_erasek {l : List (Nat × α)} {k : Nat} {v : α}
    (nd : (keysOf l).Nodup) (h : (k, v) ∈ l) :
    (erasek k l).length + 1 = l.length := by
  induction l with
  | nil => simp at h
  | cons p t ih =>
    rw [keysOf, List.map_cons, List.nodup_cons] at nd
    rcases List.mem_cons.1 h with h1 | h1
    · have hk : p.1 = k := by rw [← h1]
      rw [erasek_cons, if_pos hk, List.length_cons,
          erasek_eq_self (fun hm => nd.1 (hk ▸ hm))]
    · have hk : p.1 ≠ k := fun he => nd.1 (he ▸ List.mem_map_of_mem Prod.fst h1)
      rw [erasek_cons, if_neg hk, List.length_cons, List.length_cons, ← ih nd.2 h1]

/-! ### ptrCount lemmas -/

theorem ptrCount_le_length (c : Nat) (l : List (Nat × Handle)) :
    ptrCount c l ≤ l.length := by
  induction l with
  | nil => exact Nat.le_refl 0
  | cons p t ih =>
    rw [ptrCount_cons, List.length_cons]
    by_cases hc : p.2.m_counter = c
    · rw [if_pos hc, Nat.add_comm]
      exact Nat.add_le_add_right ih 1
    · rw [if_neg hc, Nat.zero_add]
      exact Nat.le_succ_of_le ih

theorem ptrCount_pos {c : Nat} {l : List (Nat × Handle)} {p : Nat × Handle}
    (hp : p ∈ l) (hc : p.2.m_counter = c) : 0 < ptrCount c l := by
  induction l with
  | nil => simp at hp
  | cons q t ih =>
    rw [ptrCount_cons]
    rcases List.mem_cons.1 hp with h1 | h1
    · rw [← h1, if_pos hc]
      omega
    · exact Nat.lt_of_lt_of_le (ih h1) (Nat.le_add_left _ _)

theorem ptrCount_eq_zero {c : Nat} {l : List (Nat × Handle)}
    (h : ∀ p ∈ l, p.2.m_counter ≠ c) : ptrCount c l = 0 := by
  induction l with
  | nil => rfl
  | cons q t ih =>
    rw [ptrCount_cons, if_neg (h q (List.mem_cons_self q t)), Nat.zero_add]
    exact ih (fun p hp => h p (List.mem_cons_of_mem _ hp))

theorem forall_of_ptrCount_eq_zero {c : Nat} {l : List (Nat × Handle)}
    (h : ptrCount c l = 0) : ∀ p ∈ l, p.2.m_counter ≠ c := by
  induction l with
  | nil => intro p hp; simp at hp
  | cons q t ih =>
    rw [ptrCount_cons] at h
    intro p hp
    rcases List.mem_cons.1 hp with h1 | h1
    · intro hc
      rw [← h1] at h
      rw [if_pos hc] at h
      omega
    · exact ih (by omega) p h1

theorem ptrCount_erasek {c k : Nat} {hd : Handle} {l : List (Nat × Handle)}
    (nd : (keysOf l).Nodup) (h : (k, hd) ∈ l) :
    ptrCount c l = ptrCount c (erasek k l) + (if hd.m_counter = c then 1 else 0) := by
  induction l with
  | nil => simp at h
  | cons p t ih =>
    rw [keysOf, List.map_cons, List.nodup_cons] at nd
    rcases List.mem_cons.1 h with h1 | h1
    · have hk : p.1 = k := by rw [← h1]
      rw [erasek_cons, if_pos hk, erasek_eq_self (fun hm => nd.1 (hk ▸ hm)),
          ptrCount_cons, ← h1, Nat.add_comm]
    · have hk : p.1 ≠ k := fun he => nd.1 (he ▸ List.mem_map_of_mem Prod.fst h1)
      rw [erasek_cons, if_neg hk, ptrCount_cons, ptrCount_cons, ih nd.2 h1, Nat.add_assoc]

theorem entry_eq_of_mem {l : List (Nat × α)} (nd : (keysOf l).Nodup)
    {k : Nat} {v : α} {q : Nat × α} (hv : (k, v) ∈ l) (hq : q ∈ l)
    (hk : q.1 = k) : q = (k, v) := by
  have h1 : lookupk k l = some v := lookupk_eq_some_of_mem nd hv
  have h2 : lookupk k l = some q.2 := by
    have : (k, q.2) ∈ l := by
      have : q = (k, q.2) := by
        calc q = (q.1, q.2) := rfl
          _ = (k, q.2) := by rw [hk]
      exact this ▸ hq
    exact lookupk_eq_some_of_mem nd this
  have h3 : v = q.2 := by
    rw [h1] at h2
    exact Option.some.injEq _ _ ▸ h2
  calc q = (q.1, q.2) := rfl
    _ = (k, v) := by rw [hk, h3]

theorem sole_pointer {c k : Nat} {hd : Handle} {l : List (Nat × Handle)}
    (nd : (keysOf l).Nodup) (h : (k, hd) ∈ l) (hc : hd.m_counter = c)
    (h1 : ptrCount c l = 1) :
    ∀ q ∈ l, q.2.m_counter = c → q = (k, hd) := by
  have he := ptrCount_erasek (c := c) nd h
  rw [if_pos hc, h1] at he
  have hz : ptrCount c (erasek k l) = 0 := by omega
  intro q hq hqc
  by_cases hqk : q.1 = k
  · exact entry_eq_of_mem nd h hq hqk
  · exact absurd hqc (forall_of_ptrCount_eq_zero hz q (mem_erasek.2 ⟨hq, hqk⟩))

theorem ptrCount_cons_eq {c : Nat} {p : Nat × Handle} {l : List (Nat × Handle)}
    (h : p.2.m_counter = c) : ptrCount c (p :: l) = 1 + ptrCount c l := by
  rw [ptrCount_cons, if_pos h]

theorem ptrCount_cons_ne {c : Nat} {p : Nat × Handle} {l : List (Nat × Handle)}
    (h : p.2.m_counter ≠ c) : ptrCount c (p :: l) = ptrCount c l := by
  rw [ptrCount_cons, if_neg h, Nat.zero_add]

theorem ptrCount_erasek_eq {c k : Nat} {hd : Handle} {l : List (Nat × Handle)}
    (nd : (keysOf l).Nodup) (hm : (k, hd) ∈ l) (h : hd.m_counter = c) :
    ptrCount c (erasek k l) + 1 = ptrCount c l := by
  have he := ptrCount_erasek (c := c) nd hm
  rw [if_pos h] at he
  omega

theorem ptrCount_erasek_ne2 {c k : Nat} {hd : Handle} {l : List (Nat × Handle)}
    (nd : (keysOf l).Nodup) (hm : (k, hd) ∈ l) (h : hd.m_counter ≠ c) :
    ptrCount c (erasek k l) = ptrCount c l := by
  have he := ptrCount_erasek (c := c) nd hm
  rw [if_neg h] at he
  omega

theorem ptrCount_eq_zero_of_fresh {l : List (Nat × Handle)} {n : Nat}
    (h : ∀ p ∈ l, p.2.m_counter < n) : ptrCount n l = 0 :=
  ptrCount_eq_zero (fun p hp he => Nat.lt_irrefl n (he ▸ h p hp))

/-! ### Counter arithmetic -/

theorem ctrDec_zero : ctrDec 0 = WORD - 1 := by decide

theorem ctrDec_zero_ne : ctrDec 0 ≠ 0 := by decide

theorem ctrDec_of_pos {v : Nat} (h1 : 0 < v) (h2 : v < WORD) :
    ctrDec v = v - 1 := by
  have hw : WORD = 4294967296 := rfl
  unfold ctrDec
  have he : v + (WORD - 1) = (v - 1) + WORD := by omega
  rw [he, Nat.add_mod_right]
  exact Nat.mod_eq_of_lt (by omega)

theorem ctrInc_of_lt {v : Nat} (h : v + 1 < WORD) : ctrInc v = v + 1 :=
  Nat.mod_eq_of_lt h

/-- Characterization of the shared release step (decrement, delete counter
and resource when the count reaches zero). -/
theorem releaseStep_spec (s : State) (c : Nat) (res : Option Nat) (v : Nat)
    (hv : lookupk c s.counters = some v) :
    (ctrDec v = 0 → releaseStep s c res = some { s with counters := erasek c s.counters, freedCounters := c :: s.freedCounters, freedResources := match res with | some r => r :: s.freedResources | none => s.freedResources }) ∧
    (ctrDec v ≠ 0 → releaseStep s c res = some { s with counters := (c, ctrDec v) :: erasek c s.counters }) := by
  constructor
  · intro hz
    simp only [releaseStep, hv, if_pos hz]
  · intro hz
    simp only [releaseStep, hv, if_neg hz]


/-! ### Structural invariant of reachable states: counter addresses are
allocated below the fresh-address supply and object identities are
unambiguous (no two live objects at one address). -/

theorem keysOf_cons (k : Nat) (v : α) (l : List (Nat × α)) :
    keysOf ((k, v) :: l) = k :: keysOf l := rfl

theorem not_mem_keysOf_of_lt {l : List (Nat × α)} {n : Nat}
    (h : ∀ p ∈ l, p.1 < n) : n ∉ keysOf l := by
  intro hm
  obtain ⟨p, hp, he⟩ := List.mem_map.1 hm
  exact Nat.lt_irrefl n (he ▸ h p hp)

theorem ginv_init : GInv initState := by
  refine ⟨?_, ?_, ?_, ?_⟩ <;> simp [initState, keysOf]

theorem ginv_step {s s1 : State} {op : Op} (H : GInv s)
    (hstep : step s op = some s1) : GInv s1 := by
  obtain ⟨freshc, freshh, nodh, nodc⟩ := H
  cases op with
  | construct h res =>
    by_cases hmem : h ∈ keysOf s.handles
    · rw [step, if_pos hmem] at hstep
      exact Option.noConfusion hstep
    · rw [step, if_neg hmem] at hstep
      obtain rfl := (Option.some.inj hstep).symm
      refine ⟨?_, ?_, ?_, ?_⟩
      · intro p hp
        rcases List.mem_cons.1 hp with h1 | h1
        · rw [h1]; exact Nat.lt_succ_self _
        · exact Nat.lt_succ_of_lt (freshc p h1)
      · intro p hp
        rcases List.mem_cons.1 hp with h1 | h1
        · rw [h1]; exact Nat.lt_succ_self _
        · exact Nat.lt_succ_of_lt (freshh p h1)
      · exact List.nodup_cons.2 ⟨hmem, nodh⟩
      · exact List.nodup_cons.2 ⟨not_mem_keysOf_of_lt freshc, nodc⟩
  | copyConstruct h src =>
    by_cases hmem : h ∈ keysOf s.handles
    · rw [step, if_pos hmem] at hstep
      exact Option.noConfusion hstep
    · rw [step, if_neg hmem] at hstep
      cases hsrc : lookupk src s.handles with
      | none => simp only [hsrc] at hstep; exact Option.noConfusion hstep
      | some o =>
        simp only [hsrc] at hstep
        cases hv : lookupk o.m_counter s.counters with
        | none => simp only [hv] at hstep; exact Option.noConfusion hstep
        | some v =>
          simp only [hv] at hstep
          obtain rfl := (Option.some.inj hstep).symm
          have hoc : o.m_counter < s.next := freshh _ (mem_of_lookupk hsrc)
          refine ⟨?_, ?_, ?_, ?_⟩
          · intro p hp
            rcases List.mem_cons.1 hp with h1 | h1
            · rw [h1]; exact hoc
            · exact freshc p (mem_erasek.1 h1).1
          · intro p hp
            rcases List.mem_cons.1 hp with h1 | h1
            · rw [h1]; exact hoc
            · exact freshh p h1
          · exact List.nodup_cons.2 ⟨hmem, nodh⟩
          · exact List.nodup_cons.2
              ⟨not_mem_keysOf_erasek_self _ _, nodup_keysOf_erasek _ nodc⟩
  | copyAssign dst src =>
    cases hd : lookupk dst s.handles with
    | none => simp only [step, hd] at hstep; exact Option.noConfusion hstep
    | some d =>
      cases ho : lookupk src s.handles with
      | none => simp only [step, hd, ho] at hstep; exact Option.noConfusion hstep
      | some o =>
        simp only [step, hd, ho] at hstep
        have hdc : d.m_counter < s.next := freshh _ (mem_of_lookupk hd)
        have hoc : o.m_counter < s.next := freshh _ (mem_of_lookupk ho)
        have hnodh1 : (keysOf ((dst, o) :: erasek dst s.handles)).Nodup :=
          List.nodup_cons.2
            ⟨not_mem_keysOf_erasek_self _ _, nodup_keysOf_erasek _ nodh⟩
        have hfreshh1 : ∀ p ∈ (dst, o) :: erasek dst s.handles,
            p.2.m_counter < s.next := by
          intro p hp
          rcases List.mem_cons.1 hp with h1 | h1
          · rw [h1]; exact hoc
          · exact freshh p (mem_erasek.1 h1).1
        by_cases hguard : d.resource_ = o.resource_ ∧ d.m_counter = o.m_counter
        · rw [if_pos hguard] at hstep
          obtain rfl := (Option.some.inj hstep).symm
          exact ⟨freshc, freshh, nodh, nodc⟩
        · rw [if_neg hguard] at hstep
          cases hv : lookupk d.m_counter s.counters with
          | none =>
            simp only [releaseStep, hv] at hstep
            exact Option.noConfusion hstep
          | some v =>
            by_cases hz : ctrDec v = 0
            · simp only [(releaseStep_spec s d.m_counter d.resource_ v hv).1 hz] at hstep
              by_cases hsome : o.resource_.isSome = true
              · rw [if_pos hsome] at hstep
                cases hw : lookupk o.m_counter (erasek d.m_counter s.counters) with
                | none => simp only [hw] at hstep; exact Option.noConfusion hstep
                | some w =>
                  simp only [hw] at hstep
                  obtain rfl := (Option.some.inj hstep).symm
                  refine ⟨?_, hfreshh1, hnodh1, ?_⟩
                  · intro p hp
                    rcases List.mem_cons.1 hp with h1 | h1
                    · rw [h1]; exact hoc
                    · exact freshc p (mem_erasek.1 (mem_erasek.1 h1).1).1
                  · exact List.nodup_cons.2
                      ⟨not_mem_keysOf_erasek_self _ _,
                       nodup_keysOf_erasek _ (nodup_keysOf_erasek _ nodc)⟩
              · rw [if_neg hsome] at hstep
                obtain rfl := (Option.some.inj hstep).symm
                refine ⟨?_, hfreshh1, hnodh1, nodup_keysOf_erasek _ nodc⟩
                intro p hp
                exact freshc p (mem_erasek.1 hp).1
            · simp only [(releaseStep_spec s d.m_counter d.resource_ v hv).2 hz] at hstep
              have hnodc1 : (keysOf ((d.m_counter, ctrDec v) :: erasek d.m_counter s.counters)).Nodup :=
                List.nodup_cons.2
                  ⟨not_mem_keysOf_erasek_self _ _, nodup_keysOf_erasek _ nodc⟩
              have hfreshc1 : ∀ p ∈ (d.m_counter, ctrDec v) :: erasek d.m_counter s.counters,
                  p.1 < s.next := by
                intro p hp
                rcases List.mem_cons.1 hp with h1 | h1
                · rw [h1]; exact hdc
                · exact freshc p (mem_erasek.1 h1).1
              by_cases hsome : o.resource_.isSome = true
              · rw [if_pos hsome] at hstep
                cases hw : lookupk o.m_counter
                    ((d.m_counter, ctrDec v) :: erasek d.m_counter s.counters) with
                | none => simp only [hw] at hstep; exact Option.noConfusion hstep
                | some w =>
                  simp only [hw] at hstep
                  obtain rfl := (Option.some.inj hstep).symm
                  refine ⟨?_, hfreshh1, hnodh1, ?_⟩
                  · intro p hp
                    rcases List.mem_cons.1 hp with h1 | h1
                    · rw [h1]; exact hoc
                    · exact hfreshc1 p (mem_erasek.1 h1).1
                  · exact List.nodup_cons.2
                      ⟨not_mem_keysOf_erasek_self _ _, nodup_keysOf_erasek _ hnodc1⟩
              · rw [if_neg hsome] at hstep
                obtain rfl := (Option.some.inj hstep).symm
                exact ⟨hfreshc1, hfreshh1, hnodh1, hnodc1⟩
  | rawAssign dst res =>
    cases hd : lookupk dst s.handles with
    | none => simp only [step, hd] at hstep; exact Option.noConfusion hstep
    | some d =>
      simp only [step, hd] at hstep
      cases hv : lookupk d.m_counter s.counters with
      | none =>
        simp only [releaseStep, hv] at hstep
        exact Option.noConfusion hstep
      | some v =>
        have hdc : d.m_counter < s.next := freshh _ (mem_of_lookupk hd)
        by_cases hz : ctrDec v = 0
        · simp only [(releaseStep_spec s d.m_counter d.resource_ v hv).1 hz] at hstep
          obtain rfl := (Option.some.inj hstep).symm
          refine ⟨?_, ?_, ?_, ?_⟩
          · intro p hp
            rcases List.mem_cons.1 hp with h1 | h1
            · rw [h1]; exact Nat.lt_succ_self _
            · exact Nat.lt_succ_of_lt (freshc p (mem_erasek.1 h1).1)
          · intro p hp
            rcases List.mem_cons.1 hp with h1 | h1
            · rw [h1]; exact Nat.lt_succ_self _
            · exact Nat.lt_succ_of_lt (freshh p (mem_erasek.1 h1).1)
          · exact List.nodup_cons.2
              ⟨not_mem_keysOf_erasek_self _ _, nodup_keysOf_erasek _ nodh⟩
          · refine List.nodup_cons.2 ⟨?_, nodup_keysOf_erasek _ nodc⟩
            exact not_mem_keysOf_of_lt
              (fun p hp => freshc p (mem_erasek.1 hp).1)
        · simp only [(releaseStep_spec s d.m_counter d.resource_ v hv).2 hz] at hstep
          obtain rfl := (Option.some.inj hstep).symm
          refine ⟨?_, ?_, ?_, ?_⟩
          · intro p hp
            rcases List.mem_cons.1 hp with h1 | h1
            · rw [h1]; exact Nat.lt_succ_self _
            · rcases List.mem_cons.1 h1 with h2 | h2
              · rw [h2]; exact Nat.lt_succ_of_lt hdc
              · exact Nat.lt_succ_of_lt (freshc p (mem_erasek.1 h2).1)
          · intro p hp
            rcases List.mem_cons.1 hp with h1 | h1
            · rw [h1]; exact Nat.lt_succ_self _
            · exact Nat.lt_succ_of_lt (freshh p (mem_erasek.1 h1).1)
          · exact List.nodup_cons.2
              ⟨not_mem_keysOf_erasek_self _ _, nodup_keysOf_erasek _ nodh⟩
          · refine List.nodup_cons.2 ⟨?_, ?_⟩
            · refine not_mem_keysOf_of_lt ?_
              intro p hp
              rcases List.mem_cons.1 hp with h1 | h1
              · rw [h1]; exact hdc
              · exact freshc p (mem_erasek.1 h1).1
            · exact List.nodup_cons.2
                ⟨not_mem_keysOf_erasek_self _ _, nodup_keysOf_erasek _ nodc⟩
  | destruct h =>
    cases hd : lookupk h s.handles with
    | none => simp only [step, hd] at hstep; exact Option.noConfusion hstep
    | some d =>
      simp only [step, hd] at hstep
      cases hv : lookupk d.m_counter s.counters with
      | none =>
        simp only [releaseStep, hv] at hstep
        exact Option.noConfusion hstep
      | some v =>
        have hdc : d.m_counter < s.next := freshh _ (mem_of_lookupk hd)
        by_cases hz : ctrDec v = 0
        · simp only [(releaseStep_spec s d.m_counter d.resource_ v hv).1 hz] at hstep
          obtain rfl := (Option.some.inj hstep).symm
          refine ⟨?_, ?_, nodup_keysOf_erasek _ nodh, nodup_keysOf_erasek _ nodc⟩
          · exact fun p hp => freshc p (mem_erasek.1 hp).1
          · exact fun p hp => freshh p (mem_erasek.1 hp).1
        · simp only [(releaseStep_spec s d.m_counter d.resource_ v hv).2 hz] at hstep
          obtain rfl := (Option.some.inj hstep).symm
          refine ⟨?_, ?_, nodup_keysOf_erasek _ nodh, ?_⟩
          · intro p hp
            rcases List.mem_cons.1 hp with h1 | h1
            · rw [h1]; exact hdc
            · exact freshc p (mem_erasek.1 h1).1
          · exact fun p hp => freshh p (mem_erasek.1 hp).1
          · exact List.nodup_cons.2
              ⟨not_mem_keysOf_erasek_self _ _, nodup_keysOf_erasek _ nodc⟩
  | detach h =>
    cases hd : lookupk h s.handles with
    | none => simp only [step, hd] at hstep; exact Option.noConfusion hstep
    | some d =>
      simp only [step, hd] at hstep
      obtain rfl := (Option.some.inj hstep).symm
      exact ⟨freshc, freshh, nodh, nodc⟩

/-- GInv holds in every reachable state. -/
theorem ginv_run : ∀ (ops : List Op) (s t : State), GInv s →
    run s ops = some t → GInv t := by
  intro ops
  induction ops with
  | nil =>
    intro s t H hrun
    rw [run] at hrun
    obtain rfl := (Option.some.inj hrun).symm
    exact H
  | cons op rest ih =>
    intro s t H hrun
    rw [run] at hrun
    cases hstep : step s op with
    | none => rw [hstep] at hrun; exact Option.noConfusion hrun
    | some s1 =>
      rw [hstep] at hrun
      exact ih s1 t (ginv_step H hstep) hrun

/-! ### The aliasing invariant on all traces -/

theorem sameRes_sub {hs hs1 : List (Nat × Handle)}
    (S : ∀ p ∈ hs, ∀ q ∈ hs,
      p.2.m_counter = q.2.m_counter → p.2.resource_ = q.2.resource_)
    (hsub : ∀ p ∈ hs1, p ∈ hs) :
    ∀ p ∈ hs1, ∀ q ∈ hs1,
      p.2.m_counter = q.2.m_counter → p.2.resource_ = q.2.resource_ :=
  fun p hp q hq => S p (hsub p hp) q (hsub q hq)

theorem sameRes_cons_mem {hs hs1 : List (Nat × Handle)} {k src : Nat} {o : Handle}
    (S : ∀ p ∈ hs, ∀ q ∈ hs,
      p.2.m_counter = q.2.m_counter → p.2.resource_ = q.2.resource_)
    (hsub : ∀ p ∈ hs1, p ∈ hs) (hom : (src, o) ∈ hs) :
    ∀ p ∈ (k, o) :: hs1, ∀ q ∈ (k, o) :: hs1,
      p.2.m_counter = q.2.m_counter → p.2.resource_ = q.2.resource_ := by
  intro p hp q hq hpq
  rcases List.mem_cons.1 hp with h1 | h1 <;> rcases List.mem_cons.1 hq with h2 | h2
  · rw [h1, h2]
  · rw [h1] at hpq ⊢
    exact S (src, o) hom q (hsub q h2) hpq
  · rw [h2] at hpq ⊢
    exact S p (hsub p h1) (src, o) hom hpq
  · exact S p (hsub p h1) q (hsub q h2) hpq

theorem sameRes_cons_fresh {hs hs1 : List (Nat × Handle)} {k n : Nat}
    {res : Option Nat}
    (S : ∀ p ∈ hs, ∀ q ∈ hs,
      p.2.m_counter = q.2.m_counter → p.2.resource_ = q.2.resource_)
    (hsub : ∀ p ∈ hs1, p ∈ hs) (hfr : ∀ p ∈ hs, p.2.m_counter < n) :
    ∀ p ∈ (k, (⟨res, n⟩ : Handle)) :: hs1, ∀ q ∈ (k, (⟨res, n⟩ : Handle)) :: hs1,
      p.2.m_counter = q.2.m_counter → p.2.resource_ = q.2.resource_ := by
  intro p hp q hq hpq
  rcases List.mem_cons.1 hp with h1 | h1 <;> rcases List.mem_cons.1 hq with h2 | h2
  · rw [h1, h2]
  · rw [h1] at hpq
    have hlt := hfr q (hsub q h2)
    rw [← hpq] at hlt
    exact absurd hlt (Nat.lt_irrefl _)
  · rw [h2] at hpq
    have hlt := hfr p (hsub p h1)
    rw [hpq] at hlt
    exact absurd hlt (Nat.lt_irrefl _)
  · exact S p (hsub p h1) q (hsub q h2) hpq

theorem sinv_init : SInv initState :=
  fun p hp => absurd hp (List.not_mem_nil p)

theorem sinv_step {s s1 : State} {op : Op} (G : GInv s) (S : SInv s)
    (hstep : step s op = some s1) : SInv s1 := by
  obtain ⟨freshc, freshh, nodh, nodc⟩ := G
  cases op with
  | construct h res =>
    by_cases hmem : h ∈ keysOf s.handles
    · rw [step, if_pos hmem] at hstep
      exact Option.noConfusion hstep
    · rw [step, if_neg hmem] at hstep
      obtain rfl := (Option.some.inj hstep).symm
      exact sameRes_cons_fresh S (fun p hp => hp) freshh
  | copyConstruct h src =>
    by_cases hmem : h ∈ keysOf s.handles
    · rw [step, if_pos hmem] at hstep
      exact Option.noConfusion hstep
    · rw [step, if_neg hmem] at hstep
      cases hsrc : lookupk src s.handles with
      | none => simp only [hsrc] at hstep; exact Option.noConfusion hstep
      | some o =>
        simp only [hsrc] at hstep
        cases hv : lookupk o.m_counter s.counters with
        | none => simp only [hv] at hstep; exact Option.noConfusion hstep
        | some v =>
          simp only [hv] at hstep
          obtain rfl := (Option.some.inj hstep).symm
          exact sameRes_cons_mem S (fun p hp => hp) (mem_of_lookupk hsrc)
  | copyAssign dst src =>
    cases hd : lookupk dst s.handles with
    | none => simp only [step, hd] at hstep; exact Option.noConfusion hstep
    | some d =>
      cases ho : lookupk src s.handles with
      | none => simp only [step, hd, ho] at hstep; exact Option.noConfusion hstep
      | some o =>
        simp only [step, hd, ho] at hstep
        by_cases hguard : d.resource_ = o.resource_ ∧ d.m_counter = o.m_counter
        · rw [if_pos hguard] at hstep
          obtain rfl := (Option.some.inj hstep).symm
          exact S
        · rw [if_neg hguard] at hstep
          cases hv : lookupk d.m_counter s.counters with
          | none =>
            simp only [releaseStep, hv] at hstep
            exact Option.noConfusion hstep
          | some v =>
            have hS1 := @sameRes_cons_mem s.handles (erasek dst s.handles) dst src o
              S (fun p hp => (mem_erasek.1 hp).1) (mem_of_lookupk ho)
            by_cases hz : ctrDec v = 0
            · simp only [(releaseStep_spec s d.m_counter d.resource_ v hv).1 hz] at hstep
              by_cases hsome : o.resource_.isSome = true
              · rw [if_pos hsome] at hstep
                cases hw : lookupk o.m_counter (erasek d.m_counter s.counters) with
                | none => simp only [hw] at hstep; exact Option.noConfusion hstep
                | some w =>
                  simp only [hw] at hstep
                  obtain rfl := (Option.some.inj hstep).symm
                  exact hS1
              · rw [if_neg hsome] at hstep
                obtain rfl := (Option.some.inj hstep).symm
                exact hS1
            · simp only [(releaseStep_spec s d.m_counter d.resource_ v hv).2 hz] at hstep
              by_cases hsome : o.resource_.isSome = true
              · rw [if_pos hsome] at hstep
                cases hw : lookupk o.m_counter
                    ((d.m_counter, ctrDec v) :: erasek d.m_counter s.counters) with
                | none => simp only [hw] at hstep; exact Option.noConfusion hstep
                | some w =>
                  simp only [hw] at hstep
                  obtain rfl := (Option.some.inj hstep).symm
                  exact hS1
              · rw [if_neg hsome] at hstep
                obtain rfl := (Option.some.inj hstep).symm
                exact hS1
  | rawAssign dst res =>
    cases hd : lookupk dst s.handles with
    | none => simp only [step, hd] at hstep; exact Option.noConfusion hstep
    | some d =>
      simp only [step, hd] at hstep
      cases hv : lookupk d.m_counter s.counters with
      | none =>
        simp only [releaseStep, hv] at hstep
        exact Option.noConfusion hstep
      | some v =>
        have hS1 := @sameRes_cons_fresh s.handles (erasek dst s.handles) dst s.next res
          S (fun p hp => (mem_erasek.1 hp).1) freshh
        by_cases hz : ctrDec v = 0
        · simp only [(releaseStep_spec s d.m_counter d.resource_ v hv).1 hz] at hstep
          obtain rfl := (Option.some.inj hstep).symm
          exact hS1
        · simp only [(releaseStep_spec s d.m_counter d.resource_ v hv).2 hz] at hstep
          obtain rfl := (Option.some.inj hstep).symm
          exact hS1
  | destruct h =>
    cases hd : lookupk h s.handles with
    | none => simp only [step, hd] at hstep; exact Option.noConfusion hstep
    | some d =>
      simp only [step, hd] at hstep
      cases hv : lookupk d.m_counter s.counters with
      | none =>
        simp only [releaseStep, hv] at hstep
        exact Option.noConfusion hstep
      | some v =>
        by_cases hz : ctrDec v = 0
        · simp only [(releaseStep_spec s d.m_counter d.resource_ v hv).1 hz] at hstep
          obtain rfl := (Option.some.inj hstep).symm
          exact sameRes_sub S (fun p hp => (mem_erasek.1 hp).1)
        · simp only [(releaseStep_spec s d.m_counter d.resource_ v hv).2 hz] at hstep
          obtain rfl := (Option.some.inj hstep).symm
          exact sameRes_sub S (fun p hp => (mem_erasek.1 hp).1)
  | detach h =>
    cases hd : lookupk h s.handles with
    | none => simp only [step, hd] at hstep; exact Option.noConfusion hstep
    | some d =>
      simp only [step, hd] at hstep
      obtain rfl := (Option.some.inj hstep).symm
      exact S

/-- SInv holds in every reachable state. -/
theorem sinv_run : ∀ (ops : List Op) (s t : State), GInv s → SInv s →
    run s ops = some t → SInv t := by
  intro ops
  induction ops with
  | nil =>
    intro s t _ S hrun
    rw [run] at hrun
    obtain rfl := (Option.some.inj hrun).symm
    exact S
  | cons op rest ih =>
    intro s t G S hrun
    rw [run] at hrun
    cases hstep : step s op with
    | none => rw [hstep] at hrun; exact Option.noConfusion hrun
    | some s1 =>
      rw [hstep] at hrun
      exact ih s1 t (ginv_step G hstep) (sinv_step G S hstep) hrun

/-! ### The counting invariant on non-null traces -/

theorem ninv_step {s s1 : State} {op : Op} (G : GInv s) (N : NInv s)
    (hb : s.handles.length + 1 < WORD) (hn : op.nonNull)
    (hstep : step s op = some s1) :
    NInv s1 ∧ s1.handles.length ≤ s.handles.length + 1 := by
  obtain ⟨freshc, freshh, nodh, nodc⟩ := G
  obtain ⟨hnn, cnt, same⟩ := N
  cases op with
  | construct h res =>
    have hres : res.isSome = true := hn
    by_cases hmem : h ∈ keysOf s.handles
    · rw [step, if_pos hmem] at hstep
      exact Option.noConfusion hstep
    · rw [step, if_neg hmem] at hstep
      obtain rfl := (Option.some.inj hstep).symm
      have hz0 : ptrCount s.next s.handles = 0 := ptrCount_eq_zero_of_fresh freshh
      refine ⟨⟨?_, ?_, ?_⟩, ?_⟩
      · intro p hp
        rcases List.mem_cons.1 hp with h1 | h1
        · rw [h1]; exact hres
        · exact hnn p h1
      · intro p hp
        rcases List.mem_cons.1 hp with h1 | h1
        · rw [h1]
          show (if res.isSome = true then 1 else 0) =
            ptrCount s.next ((h, ⟨res, s.next⟩) :: s.handles)
          have e1 : ptrCount s.next ((h, (⟨res, s.next⟩ : Handle)) :: s.handles) =
              1 + ptrCount s.next s.handles := ptrCount_cons_eq rfl
          rw [if_pos hres]
          omega
        · have hne : ((h, (⟨res, s.next⟩ : Handle))).2.m_counter ≠ p.1 :=
            fun he => Nat.lt_irrefl p.1 (he ▸ freshc p h1)
          show p.2 = ptrCount p.1 ((h, ⟨res, s.next⟩) :: s.handles)
          have e1 : ptrCount p.1 ((h, (⟨res, s.next⟩ : Handle)) :: s.handles) =
              ptrCount p.1 s.handles := ptrCount_cons_ne hne
          have e2 := cnt p h1
          omega
      · intro p hp q hq hpq
        rcases List.mem_cons.1 hp with h1 | h1 <;> rcases List.mem_cons.1 hq with h2 | h2
        · rw [h1, h2]
        · rw [h1] at hpq
          have hlt := freshh q h2
          rw [← hpq] at hlt
          exact absurd hlt (Nat.lt_irrefl _)
        · rw [h2] at hpq
          have hlt := freshh p h1
          rw [hpq] at hlt
          exact absurd hlt (Nat.lt_irrefl _)
        · exact same p h1 q h2 hpq
      · show ((h, (⟨res, s.next⟩ : Handle)) :: s.handles).length ≤ s.handles.length + 1
        rw [List.length_cons]
  | copyConstruct h src =>
    by_cases hmem : h ∈ keysOf s.handles
    · rw [step, if_pos hmem] at hstep
      exact Option.noConfusion hstep
    · rw [step, if_neg hmem] at hstep
      cases hsrc : lookupk src s.handles with
      | none => simp only [hsrc] at hstep; exact Option.noConfusion hstep
      | some o =>
        simp only [hsrc] at hstep
        cases hv : lookupk o.m_counter s.counters with
        | none => simp only [hv] at hstep; exact Option.noConfusion hstep
        | some v =>
          simp only [hv] at hstep
          obtain rfl := (Option.some.inj hstep).symm
          have hom : (src, o) ∈ s.handles := mem_of_lookupk hsrc
          have hv1 : v = ptrCount o.m_counter s.handles := cnt _ (mem_of_lookupk hv)
          have hvle : ptrCount o.m_counter s.handles ≤ s.handles.length :=
            ptrCount_le_length _ _
          refine ⟨⟨?_, ?_, ?_⟩, ?_⟩
          · intro p hp
            rcases List.mem_cons.1 hp with h1 | h1
            · rw [h1]; exact hnn (src, o) hom
            · exact hnn p h1
          · intro p hp
            rcases List.mem_cons.1 hp with h1 | h1
            · rw [h1]
              show ctrInc v = ptrCount o.m_counter ((h, o) :: s.handles)
              have e1 : ptrCount o.m_counter ((h, o) :: s.handles) =
                  1 + ptrCount o.m_counter s.handles := ptrCount_cons_eq rfl
              have e2 : ctrInc v = v + 1 := ctrInc_of_lt (by omega)
              omega
            · obtain ⟨hpm, hpne⟩ := mem_erasek.1 h1
              show p.2 = ptrCount p.1 ((h, o) :: s.handles)
              have e1 : ptrCount p.1 ((h, o) :: s.handles) = ptrCount p.1 s.handles :=
                ptrCount_cons_ne (fun he => hpne he.symm)
              have e2 := cnt p hpm
              omega
          · intro p hp q hq hpq
            rcases List.mem_cons.1 hp with h1 | h1 <;> rcases List.mem_cons.1 hq with h2 | h2
            · rw [h1, h2]
            · rw [h1] at hpq ⊢
              exact same (src, o) hom q h2 hpq
            · rw [h2] at hpq ⊢
              exact same p h1 (src, o) hom hpq
            · exact same p h1 q h2 hpq
          · show ((h, o) :: s.handles).length ≤ s.handles.length + 1
            rw [List.length_cons]
  | copyAssign dst src =>
    cases hd : lookupk dst s.handles with
    | none => simp only [step, hd] at hstep; exact Option.noConfusion hstep
    | some d =>
      cases ho : lookupk src s.handles with
      | none => simp only [step, hd, ho] at hstep; exact Option.noConfusion hstep
      | some o =>
        simp only [step, hd, ho] at hstep
        have hdm : (dst, d) ∈ s.handles := mem_of_lookupk hd
        have hom : (src, o) ∈ s.handles := mem_of_lookupk ho
        by_cases hguard : d.resource_ = o.resource_ ∧ d.m_counter = o.m_counter
        · rw [if_pos hguard] at hstep
          obtain rfl := (Option.some.inj hstep).symm
          exact ⟨⟨hnn, cnt, same⟩, Nat.le_succ _⟩
        · rw [if_neg hguard] at hstep
          have hne : d.m_counter ≠ o.m_counter :=
            fun he => hguard ⟨same (dst, d) hdm (src, o) hom he, he⟩
          have hone : o.m_counter ≠ d.m_counter := fun he => hne he.symm
          have hsome : o.resource_.isSome = true := hnn (src, o) hom
          cases hv : lookupk d.m_counter s.counters with
          | none =>
            simp only [releaseStep, hv] at hstep
            exact Option.noConfusion hstep
          | some v =>
            have hv1 : v = ptrCount d.m_counter s.handles := cnt _ (mem_of_lookupk hv)
            have hvpos : 0 < v := hv1 ▸ ptrCount_pos hdm rfl
            have hvle : ptrCount d.m_counter s.handles ≤ s.handles.length :=
              ptrCount_le_length _ _
            have hdec : ctrDec v = v - 1 := ctrDec_of_pos hvpos (by omega)
            have hlen1 : (erasek dst s.handles).length + 1 = s.handles.length :=
              length_erasek nodh hdm
            have hponn : ptrCount o.m_counter (erasek dst s.handles) =
                ptrCount o.m_counter s.handles := ptrCount_erasek_ne2 nodh hdm hne
            have hpdd : ptrCount d.m_counter (erasek dst s.handles) + 1 =
                ptrCount d.m_counter s.handles := ptrCount_erasek_eq nodh hdm rfl
            have hnnS : ∀ p ∈ (dst, o) :: erasek dst s.handles,
                p.2.resource_.isSome = true := by
              intro p hp
              rcases List.mem_cons.1 hp with h1 | h1
              · rw [h1]; exact hsome
              · exact hnn p (mem_erasek.1 h1).1
            have hsameS : ∀ p ∈ (dst, o) :: erasek dst s.handles,
                ∀ q ∈ (dst, o) :: erasek dst s.handles,
                p.2.m_counter = q.2.m_counter → p.2.resource_ = q.2.resource_ := by
              intro p hp q hq hpq
              rcases List.mem_cons.1 hp with h1 | h1 <;>
                rcases List.mem_cons.1 hq with h2 | h2
              · rw [h1, h2]
              · rw [h1] at hpq ⊢
                exact same (src, o) hom q (mem_erasek.1 h2).1 hpq
              · rw [h2] at hpq ⊢
                exact same p (mem_erasek.1 h1).1 (src, o) hom hpq
              · exact same p (mem_erasek.1 h1).1 q (mem_erasek.1 h2).1 hpq
            have hlenS : ((dst, o) :: erasek dst s.handles).length ≤
                s.handles.length + 1 := by
              rw [List.length_cons]
              omega
            have hconso : ptrCount o.m_counter ((dst, o) :: erasek dst s.handles) =
                1 + ptrCount o.m_counter (erasek dst s.handles) := ptrCount_cons_eq rfl
            have hconsd : ptrCount d.m_counter ((dst, o) :: erasek dst s.handles) =
                ptrCount d.m_counter (erasek dst s.handles) := ptrCount_cons_ne hone
            by_cases hz : ctrDec v = 0
            · simp only [(releaseStep_spec s d.m_counter d.resource_ v hv).1 hz] at hstep
              rw [if_pos hsome] at hstep
              cases hw : lookupk o.m_counter (erasek d.m_counter s.counters) with
              | none => simp only [hw] at hstep; exact Option.noConfusion hstep
              | some w =>
                simp only [hw] at hstep
                obtain rfl := (Option.some.inj hstep).symm
                have hwm : (o.m_counter, w) ∈ s.counters :=
                  (mem_erasek.1 (mem_of_lookupk hw)).1
                have hw1 : w = ptrCount o.m_counter s.handles := cnt _ hwm
                have hwle : ptrCount o.m_counter s.handles ≤ s.handles.length :=
                  ptrCount_le_length _ _
                refine ⟨⟨hnnS, ?_, hsameS⟩, hlenS⟩
                intro p hp
                rcases List.mem_cons.1 hp with h1 | h1
                · rw [h1]
                  show ctrInc w = ptrCount o.m_counter ((dst, o) :: erasek dst s.handles)
                  have e2 : ctrInc w = w + 1 := ctrInc_of_lt (by omega)
                  omega
                · obtain ⟨h2, hpo⟩ := mem_erasek.1 h1
                  obtain ⟨h3, hpd⟩ := mem_erasek.1 h2
                  show p.2 = ptrCount p.1 ((dst, o) :: erasek dst s.handles)
                  have e1 : ptrCount p.1 ((dst, o) :: erasek dst s.handles) =
                      ptrCount p.1 (erasek dst s.handles) :=
                    ptrCount_cons_ne (fun he => hpo he.symm)
                  have e2 : ptrCount p.1 (erasek dst s.handles) =
                      ptrCount p.1 s.handles :=
                    ptrCount_erasek_ne2 nodh hdm (fun he => hpd he.symm)
                  have e3 := cnt p h3
                  omega
            · simp only [(releaseStep_spec s d.m_counter d.resource_ v hv).2 hz] at hstep
              rw [if_pos hsome] at hstep
              cases hw : lookupk o.m_counter
                  ((d.m_counter, ctrDec v) :: erasek d.m_counter s.counters) with
              | none => simp only [hw] at hstep; exact Option.noConfusion hstep
              | some w =>
                simp only [hw] at hstep
                obtain rfl := (Option.some.inj hstep).symm
                rw [lookupk_cons, if_neg hne, lookupk_erasek_ne _ hone] at hw
                have hw1 : w = ptrCount o.m_counter s.handles := cnt _ (mem_of_lookupk hw)
                have hwle : ptrCount o.m_counter s.handles ≤ s.handles.length :=
                  ptrCount_le_length _ _
                refine ⟨⟨hnnS, ?_, hsameS⟩, hlenS⟩
                intro p hp
                rcases List.mem_cons.1 hp with h1 | h1
                · rw [h1]
                  show ctrInc w = ptrCount o.m_counter ((dst, o) :: erasek dst s.handles)
                  have e2 : ctrInc w = w + 1 := ctrInc_of_lt (by omega)
                  omega
                · obtain ⟨h2, hpo⟩ := mem_erasek.1 h1
                  rcases List.mem_cons.1 h2 with h3 | h3
                  · rw [h3]
                    show ctrDec v = ptrCount d.m_counter ((dst, o) :: erasek dst s.handles)
                    omega
                  · obtain ⟨h4, hpd⟩ := mem_erasek.1 h3
                    show p.2 = ptrCount p.1 ((dst, o) :: erasek dst s.handles)
                    have e1 : ptrCount p.1 ((dst, o) :: erasek dst s.handles) =
                        ptrCount p.1 (erasek dst s.handles) :=
                      ptrCount_cons_ne (fun he => hpo he.symm)
                    have e2 : ptrCount p.1 (erasek dst s.handles) =
                        ptrCount p.1 s.handles :=
                      ptrCount_erasek_ne2 nodh hdm (fun he => hpd he.symm)
                    have e3 := cnt p h4
                    omega
  | rawAssign dst res =>
    have hres : res.isSome = true := hn
    cases hd : lookupk dst s.handles with
    | none => simp only [step, hd] at hstep; exact Option.noConfusion hstep
    | some d =>
      simp only [step, hd] at hstep
      cases hv : lookupk d.m_counter s.counters with
      | none =>
        simp only [releaseStep, hv] at hstep
        exact Option.noConfusion hstep
      | some v =>
        have hdm : (dst, d) ∈ s.handles := mem_of_lookupk hd
        have hdc : d.m_counter < s.next := freshh _ hdm
        have hnd : ((dst, (⟨res, s.next⟩ : Handle))).2.m_counter ≠ d.m_counter :=
          fun he => Nat.lt_irrefl _ (he ▸ hdc)
        have hv1 : v = ptrCount d.m_counter s.handles := cnt _ (mem_of_lookupk hv)
        have hvpos : 0 < v := hv1 ▸ ptrCount_pos hdm rfl
        have hvle : ptrCount d.m_counter s.handles ≤ s.handles.length :=
          ptrCount_le_length _ _
        have hdec : ctrDec v = v - 1 := ctrDec_of_pos hvpos (by omega)
        have hlen1 : (erasek dst s.handles).length + 1 = s.handles.length :=
          length_erasek nodh hdm
        have hz0 : ptrCount s.next (erasek dst s.handles) = 0 :=
          ptrCount_eq_zero_of_fresh (fun p hp => freshh p (mem_erasek.1 hp).1)
        have hpdd : ptrCount d.m_counter (erasek dst s.handles) + 1 =
            ptrCount d.m_counter s.handles := ptrCount_erasek_eq nodh hdm rfl
        have hconsn : ptrCount s.next
            ((dst, (⟨res, s.next⟩ : Handle)) :: erasek dst s.handles) =
            1 + ptrCount s.next (erasek dst s.handles) := ptrCount_cons_eq rfl
        have hconsd : ptrCount d.m_counter
            ((dst, (⟨res, s.next⟩ : Handle)) :: erasek dst s.handles) =
            ptrCount d.m_counter (erasek dst s.handles) := ptrCount_cons_ne hnd
        have hnnS : ∀ p ∈ (dst, (⟨res, s.next⟩ : Handle)) :: erasek dst s.handles,
            p.2.resource_.isSome = true := by
          intro p hp
          rcases List.mem_cons.1 hp with h1 | h1
          · rw [h1]; exact hres
          · exact hnn p (mem_erasek.1 h1).1
        have hsameS : ∀ p ∈ (dst, (⟨res, s.next⟩ : Handle)) :: erasek dst s.handles,
            ∀ q ∈ (dst, (⟨res, s.next⟩ : Handle)) :: erasek dst s.handles,
            p.2.m_counter = q.2.m_counter → p.2.resource_ = q.2.resource_ := by
          intro p hp q hq hpq
          rcases List.mem_cons.1 hp with h1 | h1 <;>
            rcases List.mem_cons.1 hq with h2 | h2
          · rw [h1, h2]
          · rw [h1] at hpq
            have hlt := freshh q (mem_erasek.1 h2).1
            rw [← hpq] at hlt
            exact absurd hlt (Nat.lt_irrefl _)
          · rw [h2] at hpq
            have hlt := freshh p (mem_erasek.1 h1).1
            rw [hpq] at hlt
            exact absurd hlt (Nat.lt_irrefl _)
          · exact same p (mem_erasek.1 h1).1 q (mem_erasek.1 h2).1 hpq
        have hlenS : ((dst, (⟨res, s.next⟩ : Handle)) :: erasek dst s.handles).length ≤
            s.handles.length + 1 := by
          rw [List.length_cons]
          omega
        by_cases hz : ctrDec v = 0
        · simp only [(releaseStep_spec s d.m_counter d.resource_ v hv).1 hz] at hstep
          obtain rfl := (Option.some.inj hstep).symm
          refine ⟨⟨hnnS, ?_, hsameS⟩, hlenS⟩
          intro p hp
          rcases List.mem_cons.1 hp with h1 | h1
          · rw [h1]
            show (if res.isSome = true then 1 else 0) =
              ptrCount s.next ((dst, ⟨res, s.next⟩) :: erasek dst s.handles)
            rw [if_pos hres]
            omega
          · obtain ⟨h2, hpd⟩ := mem_erasek.1 h1
            have hnp : ((dst, (⟨res, s.next⟩ : Handle))).2.m_counter ≠ p.1 :=
              fun he => Nat.lt_irrefl p.1 (he ▸ freshc p h2)
            show p.2 = ptrCount p.1 ((dst, ⟨res, s.next⟩) :: erasek dst s.handles)
            have e1 : ptrCount p.1
                ((dst, (⟨res, s.next⟩ : Handle)) :: erasek dst s.handles) =
                ptrCount p.1 (erasek dst s.handles) := ptrCount_cons_ne hnp
            have e2 : ptrCount p.1 (erasek dst s.handles) = ptrCount p.1 s.handles :=
              ptrCount_erasek_ne2 nodh hdm (fun he => hpd he.symm)
            have e3 := cnt p h2
            omega
        · simp only [(releaseStep_spec s d.m_counter d.resource_ v hv).2 hz] at hstep
          obtain rfl := (Option.some.inj hstep).symm
          refine ⟨⟨hnnS, ?_, hsameS⟩, hlenS⟩
          intro p hp
          rcases List.mem_cons.1 hp with h1 | h1
          · rw [h1]
            show (if res.isSome = true then 1 else 0) =
              ptrCount s.next ((dst, ⟨res, s.next⟩) :: erasek dst s.handles)
            rw [if_pos hres]
            omega
          · rcases List.mem_cons.1 h1 with h2 | h2
            · rw [h2]
              show ctrDec v = ptrCount d.m_counter ((dst, ⟨res, s.next⟩) :: erasek dst s.handles)
              omega
            · obtain ⟨h3, hpd⟩ := mem_erasek.1 h2
              have hnp : ((dst, (⟨res, s.next⟩ : Handle))).2.m_counter ≠ p.1 :=
                fun he => Nat.lt_irrefl p.1 (he ▸ freshc p h3)
              show p.2 = ptrCount p.1 ((dst, ⟨res, s.next⟩) :: erasek dst s.handles)
              have e1 : ptrCount p.1
                  ((dst, (⟨res, s.next⟩ : Handle)) :: erasek dst s.handles) =
                  ptrCount p.1 (erasek dst s.handles) := ptrCount_cons_ne hnp
              have e2 : ptrCount p.1 (erasek dst s.handles) = ptrCount p.1 s.handles :=
                ptrCount_erasek_ne2 nodh hdm (fun he => hpd he.symm)
              have e3 := cnt p h3
              omega
  | destruct h =>
    cases hd : lookupk h s.handles with
    | none => simp only [step, hd] at hstep; exact Option.noConfusion hstep
    | some d =>
      simp only [step, hd] at hstep
      cases hv : lookupk d.m_counter s.counters with
      | none =>
        simp only [releaseStep, hv] at hstep
        exact Option.noConfusion hstep
      | some v =>
        have hdm : (h, d) ∈ s.handles := mem_of_lookupk hd
        have hv1 : v = ptrCount d.m_counter s.handles := cnt _ (mem_of_lookupk hv)
        have hvpos : 0 < v := hv1 ▸ ptrCount_pos hdm rfl
        have hvle : ptrCount d.m_counter s.handles ≤ s.handles.length :=
          ptrCount_le_length _ _
        have hdec : ctrDec v = v - 1 := ctrDec_of_pos hvpos (by omega)
        have hlen1 : (erasek h s.handles).length + 1 = s.handles.length :=
          length_erasek nodh hdm
        have hpdd : ptrCount d.m_counter (erasek h s.handles) + 1 =
            ptrCount d.m_counter s.handles := ptrCount_erasek_eq nodh hdm rfl
        have hnnS : ∀ p ∈ erasek h s.handles, p.2.resource_.isSome = true :=
          fun p hp => hnn p (mem_erasek.1 hp).1
        have hsameS : ∀ p ∈ erasek h s.handles, ∀ q ∈ erasek h s.handles,
            p.2.m_counter = q.2.m_counter → p.2.resource_ = q.2.resource_ :=
          fun p hp q hq hpq => same p (mem_erasek.1 hp).1 q (mem_erasek.1 hq).1 hpq
        have hlenS : (erasek h s.handles).length ≤ s.handles.length + 1 := by omega
        by_cases hz : ctrDec v = 0
        · simp only [(releaseStep_spec s d.m_counter d.resource_ v hv).1 hz] at hstep
          obtain rfl := (Option.some.inj hstep).symm
          refine ⟨⟨hnnS, ?_, hsameS⟩, hlenS⟩
          intro p hp
          obtain ⟨h2, hpd⟩ := mem_erasek.1 hp
          show p.2 = ptrCount p.1 (erasek h s.handles)
          have e1 : ptrCount p.1 (erasek h s.handles) = ptrCount p.1 s.handles :=
            ptrCount_erasek_ne2 nodh hdm (fun he => hpd he.symm)
          have e2 := cnt p h2
          omega
        · simp only [(releaseStep_spec s d.m_counter d.resource_ v hv).2 hz] at hstep
          obtain rfl := (Option.some.inj hstep).symm
          refine ⟨⟨hnnS, ?_, hsameS⟩, hlenS⟩
          intro p hp
          rcases List.mem_cons.1 hp with h1 | h1
          · rw [h1]
            show ctrDec v = ptrCount d.m_counter (erasek h s.handles)
            omega
          · obtain ⟨h2, hpd⟩ := mem_erasek.1 h1
            show p.2 = ptrCount p.1 (erasek h s.handles)
            have e1 : ptrCount p.1 (erasek h s.handles) = ptrCount p.1 s.handles :=
              ptrCount_erasek_ne2 nodh hdm (fun he => hpd he.symm)
            have e2 := cnt p h2
            omega
  | detach h =>
    cases hd : lookupk h s.handles with
    | none => simp only [step, hd] at hstep; exact Option.noConfusion hstep
    | some d =>
      simp only [step, hd] at hstep
      obtain rfl := (Option.some.inj hstep).symm
      exact ⟨⟨hnn, cnt, same⟩, Nat.le_succ _⟩


theorem ninv_init : NInv initState :=
  ⟨fun p hp => absurd hp (List.not_mem_nil p),
   fun p hp => absurd hp (List.not_mem_nil p),
   fun p hp => absurd hp (List.not_mem_nil p)⟩

/-- NInv holds after every non-null trace of fewer than 2^32 steps. -/
theorem ninv_run : ∀ (ops : List Op) (s t : State), GInv s → NInv s →
    (∀ op ∈ ops, op.nonNull) → s.handles.length + ops.length < WORD →
    run s ops = some t → NInv t := by
  intro ops
  induction ops with
  | nil =>
    intro s t _ N _ _ hrun
    rw [run] at hrun
    obtain rfl := (Option.some.inj hrun).symm
    exact N
  | cons op rest ih =>
    intro s t G N hnn hlen hrun
    rw [run] at hrun
    cases hstep : step s op with
    | none => rw [hstep] at hrun; exact Option.noConfusion hrun
    | some s1 =>
      rw [hstep] at hrun
      have hc : (op :: rest).length = rest.length + 1 := List.length_cons op rest
      have hb : s.handles.length + 1 < WORD := by omega
      obtain ⟨N1, hle⟩ := ninv_step G N hb (hnn op (List.mem_cons_self op rest)) hstep
      exact ih s1 t (ginv_step G hstep) N1
        (fun o ho => hnn o (List.mem_cons_of_mem _ ho)) (by omega) hrun


/-! ### Claim theorems: destructor, alias guard, counter arithmetic,
Detach, and the implicit unsigned-wrap claims -/

/-- Claim C2: destroying a handle decrements its counter exactly once and
releases the counter object and the resource if and only if the
post-decrement count is zero; no release happens when the post-decrement
count is nonzero. -/
theorem C2_destruct_release (s : State) (h : Nat) (d : Handle) (v : Nat)
    (hh : lookupk h s.handles = some d)
    (hv : lookupk d.m_counter s.counters = some v) :
    ∃ s1, step s (Op.destruct h) = some s1 ∧
      lookupk h s1.handles = none ∧
      (ctrDec v = 0 →
        lookupk d.m_counter s1.counters = none ∧
        s1.freedCounters = d.m_counter :: s.freedCounters ∧
        s1.freedResources =
          (match d.resource_ with
           | some r => r :: s.freedResources
           | none => s.freedResources)) ∧
      (ctrDec v ≠ 0 →
        lookupk d.m_counter s1.counters = some (ctrDec v) ∧
        s1.freedCounters = s.freedCounters ∧
        s1.freedResources = s.freedResources) := by
  by_cases hz : ctrDec v = 0
  · refine ⟨{ s with handles := erasek h s.handles, counters := erasek d.m_counter s.counters, freedCounters := d.m_counter :: s.freedCounters, freedResources := match d.resource_ with | some r => r :: s.freedResources | none => s.freedResources }, ?_, ?_, ?_, ?_⟩
    · simp only [step, hh, releaseStep, hv, if_pos hz]
    · exact lookupk_erasek_self _ _
    · exact fun _ => ⟨lookupk_erasek_self _ _, rfl, rfl⟩
    · exact fun hc => absurd hz hc
  · refine ⟨{ s with handles := erasek h s.handles, counters := (d.m_counter, ctrDec v) :: erasek d.m_counter s.counters }, ?_, ?_, ?_, ?_⟩
    · simp only [step, hh, releaseStep, hv, if_neg hz]
    · exact lookupk_erasek_self _ _
    · exact fun hc => absurd hc hz
    · exact fun _ => ⟨by rw [lookupk_cons, if_pos rfl], rfl, rfl⟩

/-- Witness for C2 at a concrete one-owner state: destroying the sole
handle releases both counter and resource. -/
theorem C2_witness :
    lookupk 0 (State.mk [(0, ⟨some 7, 0⟩)] [(0, 1)] 1 [] []).handles =
      some ⟨some 7, 0⟩ ∧
    lookupk 0 (State.mk [(0, ⟨some 7, 0⟩)] [(0, 1)] 1 [] []).counters = some 1 ∧
    ∃ s1, step (State.mk [(0, ⟨some 7, 0⟩)] [(0, 1)] 1 [] []) (Op.destruct 0) = some s1 ∧
      lookupk 0 s1.handles = none ∧
      (ctrDec 1 = 0 →
        lookupk 0 s1.counters = none ∧
        s1.freedCounters = [0] ∧
        s1.freedResources = [7]) ∧
      (ctrDec 1 ≠ 0 →
        lookupk 0 s1.counters = some (ctrDec 1) ∧
        s1.freedCounters = [] ∧
        s1.freedResources = []) :=
  ⟨rfl, rfl, C2_destruct_release _ 0 ⟨some 7, 0⟩ 1 rfl rfl⟩

/-- Characterization of copy-assignment between two live handles with
distinct counters: release this handle's current pair (decrement, delete
counter and resource on zero), adopt the source's resource and counter,
and increment the adopted counter if and only if the adopted resource is
non-null. -/
theorem copyAssign_spec (s : State) (dst src : Nat) (d o : Handle) (v w : Nat)
    (hd : lookupk dst s.handles = some d)
    (ho : lookupk src s.handles = some o)
    (hne : d.m_counter ≠ o.m_counter)
    (hv : lookupk d.m_counter s.counters = some v)
    (hw : lookupk o.m_counter s.counters = some w) :
    ∃ s1, step s (Op.copyAssign dst src) = some s1 ∧
      lookupk dst s1.handles = some o ∧
      (ctrDec v = 0 →
        lookupk d.m_counter s1.counters = none ∧
        s1.freedCounters = d.m_counter :: s.freedCounters ∧
        s1.freedResources =
          (match d.resource_ with
           | some r => r :: s.freedResources
           | none => s.freedResources)) ∧
      (ctrDec v ≠ 0 →
        lookupk d.m_counter s1.counters = some (ctrDec v) ∧
        s1.freedCounters = s.freedCounters ∧
        s1.freedResources = s.freedResources) ∧
      lookupk o.m_counter s1.counters =
        some (if o.resource_.isSome then ctrInc w else w) := by
  have hguard : ¬(d.resource_ = o.resource_ ∧ d.m_counter = o.m_counter) :=
      fun hc => hne hc.2
  have hone : o.m_counter ≠ d.m_counter := fun he => hne he.symm
  have hwn : lookupk o.m_counter (erasek d.m_counter s.counters) = some w := by
    rw [lookupk_erasek_ne _ hone, hw]
  by_cases hz : ctrDec v = 0
  · have hrel := (releaseStep_spec s d.m_counter d.resource_ v hv).1 hz
    by_cases hsome : o.resource_.isSome = true
    · refine ⟨{ s with handles := (dst, o) :: erasek dst s.handles, counters := (o.m_counter, ctrInc w) :: erasek o.m_counter (erasek d.m_counter s.counters), freedCounters := d.m_counter :: s.freedCounters, freedResources := match d.resource_ with | some r => r :: s.freedResources | none => s.freedResources }, ?_, ?_, ?_, ?_, ?_⟩
      · simp only [step, hd, ho, if_neg hguard, hrel]
        rw [if_pos hsome]
        simp only [hwn]
      · rw [lookupk_cons, if_pos rfl]
      · exact fun _ => ⟨by rw [lookupk_cons, if_neg hone, lookupk_erasek_ne _ hne, lookupk_erasek_self], rfl, rfl⟩
      · exact fun hc => absurd hz hc
      · rw [lookupk_cons, if_pos rfl, if_pos hsome]
    · refine ⟨{ s with handles := (dst, o) :: erasek dst s.handles, counters := erasek d.m_counter s.counters, freedCounters := d.m_counter :: s.freedCounters, freedResources := match d.resource_ with | some r => r :: s.freedResources | none => s.freedResources }, ?_, ?_, ?_, ?_, ?_⟩
      · simp only [step, hd, ho, if_neg hguard, hrel]
        rw [if_neg hsome]
      · rw [lookupk_cons, if_pos rfl]
      · exact fun _ => ⟨lookupk_erasek_self _ _, rfl, rfl⟩
      · exact fun hc => absurd hz hc
      · rw [if_neg hsome, hwn]
  · have hrel := (releaseStep_spec s d.m_counter d.resource_ v hv).2 hz
    have hwn2 : lookupk o.m_counter ((d.m_counter, ctrDec v) :: erasek d.m_counter s.counters) = some w := by
      rw [lookupk_cons, if_neg hne, hwn]
    by_cases hsome : o.resource_.isSome = true
    · refine ⟨{ s with handles := (dst, o) :: erasek dst s.handles, counters := (o.m_counter, ctrInc w) :: erasek o.m_counter ((d.m_counter, ctrDec v) :: erasek d.m_counter s.counters) }, ?_, ?_, ?_, ?_, ?_⟩
      · simp only [step, hd, ho, if_neg hguard, hrel]
        rw [if_pos hsome]
        simp only [hwn2]
      · rw [lookupk_cons, if_pos rfl]
      · exact fun hc => absurd hc hz
      · exact fun _ => ⟨by rw [lookupk_cons, if_neg hone, lookupk_erasek_ne _ hne, lookupk_cons, if_pos rfl], rfl, rfl⟩
      · rw [lookupk_cons, if_pos rfl, if_pos hsome]
    · refine ⟨{ s with handles := (dst, o) :: erasek dst s.handles, counters := (d.m_counter, ctrDec v) :: erasek d.m_counter s.counters }, ?_, ?_, ?_, ?_, ?_⟩
      · simp only [step, hd, ho, if_neg hguard, hrel]
        rw [if_neg hsome]
      · rw [lookupk_cons, if_pos rfl]
      · exact fun hc => absurd hc hz
      · exact fun _ => ⟨by rw [lookupk_cons, if_pos rfl], rfl, rfl⟩
      · rw [if_neg hsome, hwn2]

/-- Claim C3: in any reachable state, for two live handles that do not
alias the identical (resource, counter) pair, copy-assignment releases
this handle's current pair (decrement, delete on zero), adopts the
source's resource and counter, and increments the adopted counter if and
only if the adopted resource is non-null; chained assignment of three
handles from one non-null owner leaves all three aliasing the same
resource with count 3. -/
theorem C3_copy_assign :
    (∀ (ops : List Op) (s : State) (dst src : Nat) (d o : Handle) (v w : Nat),
      run initState ops = some s →
      lookupk dst s.handles = some d →
      lookupk src s.handles = some o →
      ¬(d.resource_ = o.resource_ ∧ d.m_counter = o.m_counter) →
      lookupk d.m_counter s.counters = some v →
      lookupk o.m_counter s.counters = some w →
      ∃ s1, step s (Op.copyAssign dst src) = some s1 ∧
        lookupk dst s1.handles = some o ∧
        (ctrDec v = 0 →
          lookupk d.m_counter s1.counters = none ∧
          s1.freedCounters = d.m_counter :: s.freedCounters ∧
          s1.freedResources =
            (match d.resource_ with
             | some r => r :: s.freedResources
             | none => s.freedResources)) ∧
        (ctrDec v ≠ 0 →
          lookupk d.m_counter s1.counters = some (ctrDec v) ∧
          s1.freedCounters = s.freedCounters ∧
          s1.freedResources = s.freedResources) ∧
        lookupk o.m_counter s1.counters =
          some (if o.resource_.isSome then ctrInc w else w)) ∧
    (∃ sc, run initState [Op.construct 1 (some 10), Op.construct 2 (some 20), Op.construct 3 (some 30), Op.copyAssign 2 1, Op.copyAssign 3 2] = some sc ∧
      GetReferenceCount sc 1 = some 3 ∧
      GetReferenceCount sc 2 = some 3 ∧
      GetReferenceCount sc 3 = some 3 ∧
      lookupk 1 sc.handles = some ⟨some 10, 0⟩ ∧
      lookupk 2 sc.handles = some ⟨some 10, 0⟩ ∧
      lookupk 3 sc.handles = some ⟨some 10, 0⟩) := by
  constructor
  · intro ops s dst src d o v w hrun hd ho hguard hv hw
    have S := sinv_run ops initState s ginv_init sinv_init hrun
    have hne : d.m_counter ≠ o.m_counter :=
      fun he => hguard ⟨S (dst, d) (mem_of_lookupk hd) (src, o) (mem_of_lookupk ho) he, he⟩
    exact copyAssign_spec s dst src d o v w hd ho hne hv hw
  · exact ⟨⟨[(3, ⟨some 10, 0⟩), (2, ⟨some 10, 0⟩), (1, ⟨some 10, 0⟩)], [(0, 3)], 3, [2, 1], [30, 20]⟩, rfl, rfl, rfl, rfl, rfl, rfl, rfl⟩

/-- Witness for the quantified part of C3: copy-assignment between two
concrete one-owner handles releases the assignee's old resource and
yields a shared count of 2. -/
theorem C3_witness :
    run initState [Op.construct 0 (some 7), Op.construct 1 (some 8)] =
      some (State.mk [(1, ⟨some 8, 1⟩), (0, ⟨some 7, 0⟩)] [(1, 1), (0, 1)] 2 [] []) ∧
    lookupk 0 (State.mk [(1, ⟨some 8, 1⟩), (0, ⟨some 7, 0⟩)] [(1, 1), (0, 1)] 2 [] []).handles = some ⟨some 7, 0⟩ ∧
    lookupk 1 (State.mk [(1, ⟨some 8, 1⟩), (0, ⟨some 7, 0⟩)] [(1, 1), (0, 1)] 2 [] []).handles = some ⟨some 8, 1⟩ ∧
    ¬((some 7 : Option Nat) = some 8 ∧ (0 : Nat) = 1) ∧
    ∃ s1, step (State.mk [(1, ⟨some 8, 1⟩), (0, ⟨some 7, 0⟩)] [(1, 1), (0, 1)] 2 [] []) (Op.copyAssign 0 1) = some s1 ∧
      lookupk 0 s1.handles = some ⟨some 8, 1⟩ ∧
      (ctrDec 1 = 0 →
        lookupk 0 s1.counters = none ∧
        s1.freedCounters = [0] ∧
        s1.freedResources = [7]) ∧
      (ctrDec 1 ≠ 0 →
        lookupk 0 s1.counters = some (ctrDec 1) ∧
        s1.freedCounters = [] ∧
        s1.freedResources = []) ∧
      lookupk 1 s1.counters = some (if (some 8 : Option Nat).isSome then ctrInc 1 else 1) :=
  ⟨rfl, rfl, rfl, by decide,
   C3_copy_assign.1 [Op.construct 0 (some 7), Op.construct 1 (some 8)] _ 0 1
     ⟨some 7, 0⟩ ⟨some 8, 1⟩ 1 1 rfl rfl rfl (by decide) rfl rfl⟩

/-- Characterization of raw-pointer assignment on a handle whose counter
address differs from the fresh allocation address: release the current
pair like copy-assignment, then attach a fresh counter at 1 (non-null
resource) or 0 (null). -/
theorem rawAssign_spec :
    (∀ (s : State) (dst : Nat) (d : Handle) (v : Nat) (res : Option Nat),
      lookupk dst s.handles = some d →
      lookupk d.m_counter s.counters = some v →
      d.m_counter ≠ s.next →
      ∃ s1, step s (Op.rawAssign dst res) = some s1 ∧
        lookupk dst s1.handles = some ⟨res, s.next⟩ ∧
        lookupk s.next s1.counters = some (if res.isSome then 1 else 0) ∧
        s1.next = s.next + 1 ∧
        (ctrDec v = 0 →
          lookupk d.m_counter s1.counters = none ∧
          s1.freedCounters = d.m_counter :: s.freedCounters ∧
          s1.freedResources =
            (match d.resource_ with
             | some r => r :: s.freedResources
             | none => s.freedResources)) ∧
        (ctrDec v ≠ 0 →
          lookupk d.m_counter s1.counters = some (ctrDec v) ∧
          s1.freedCounters = s.freedCounters ∧
          s1.freedResources = s.freedResources)) ∧
    (∃ sc, run initState [Op.construct 1 (some 10), Op.copyConstruct 2 1, Op.rawAssign 2 (some 20)] = some sc ∧
      GetReferenceCount sc 1 = some 1 ∧
      GetPointer sc 1 = some (some 10) ∧
      GetReferenceCount sc 2 = some 1 ∧
      GetPointer sc 2 = some (some 20) ∧
      sc.freedCounters = [] ∧
      sc.freedResources = []) := by
  constructor
  · intro s dst d v res hd hv hnxt
    have hnd : s.next ≠ d.m_counter := fun he => hnxt he.symm
    by_cases hz : ctrDec v = 0
    · have hrel := (releaseStep_spec s d.m_counter d.resource_ v hv).1 hz
      refine ⟨{ s with handles := (dst, ⟨res, s.next⟩) :: erasek dst s.handles, counters := (s.next, if res.isSome then 1 else 0) :: erasek d.m_counter s.counters, next := s.next + 1, freedCounters := d.m_counter :: s.freedCounters, freedResources := match d.resource_ with | some r => r :: s.freedResources | none => s.freedResources }, ?_, ?_, ?_, rfl, ?_, ?_⟩
      · simp only [step, hd, hrel]
      · rw [lookupk_cons, if_pos rfl]
      · rw [lookupk_cons, if_pos rfl]
      · exact fun _ => ⟨by rw [lookupk_cons, if_neg hnd, lookupk_erasek_self], rfl, rfl⟩
      · exact fun hc => absurd hz hc
    · have hrel := (releaseStep_spec s d.m_counter d.resource_ v hv).2 hz
      refine ⟨{ s with handles := (dst, ⟨res, s.next⟩) :: erasek dst s.handles, counters := (s.next, if res.isSome then 1 else 0) :: (d.m_counter, ctrDec v) :: erasek d.m_counter s.counters, next := s.next + 1 }, ?_, ?_, ?_, rfl, ?_, ?_⟩
      · simp only [step, hd, hrel]
      · rw [lookupk_cons, if_pos rfl]
      · rw [lookupk_cons, if_pos rfl]
      · exact fun hc => absurd hc hz
      · exact fun _ => ⟨by rw [lookupk_cons, if_neg hnd, lookupk_cons, if_pos rfl], rfl, rfl⟩
  · exact ⟨⟨[(2, ⟨some 20, 1⟩), (1, ⟨some 10, 0⟩)], [(1, 1), (0, 1)], 2, [], []⟩, rfl, rfl, rfl, rfl, rfl, rfl, rfl⟩

/-- Claim C6: in any reachable state, raw-pointer assignment detaches from
the current pair exactly like copy-assignment's release step (decrement,
release on zero), then attaches a freshly allocated counter holding 1 for
a non-null new resource (0 for null) and leaves this handle its sole
owner; a sibling handle sharing the old resource is unaffected: after
h2 = new resource, h1 still owns the old resource with count 1. -/
theorem C6_raw_assign :
    (∀ (ops : List Op) (s : State) (dst : Nat) (d : Handle) (v : Nat) (res : Option Nat),
      run initState ops = some s →
      lookupk dst s.handles = some d →
      lookupk d.m_counter s.counters = some v →
      ∃ s1, step s (Op.rawAssign dst res) = some s1 ∧
        lookupk dst s1.handles = some ⟨res, s.next⟩ ∧
        lookupk s.next s1.counters = some (if res.isSome then 1 else 0) ∧
        s1.next = s.next + 1 ∧
        (ctrDec v = 0 →
          lookupk d.m_counter s1.counters = none ∧
          s1.freedCounters = d.m_counter :: s.freedCounters ∧
          s1.freedResources =
            (match d.resource_ with
             | some r => r :: s.freedResources
             | none => s.freedResources)) ∧
        (ctrDec v ≠ 0 →
          lookupk d.m_counter s1.counters = some (ctrDec v) ∧
          s1.freedCounters = s.freedCounters ∧
          s1.freedResources = s.freedResources)) ∧
    (∃ sc, run initState [Op.construct 1 (some 10), Op.copyConstruct 2 1, Op.rawAssign 2 (some 20)] = some sc ∧
      GetReferenceCount sc 1 = some 1 ∧
      GetPointer sc 1 = some (some 10) ∧
      GetReferenceCount sc 2 = some 1 ∧
      GetPointer sc 2 = some (some 20) ∧
      sc.freedCounters = [] ∧
      sc.freedResources = []) := by
  constructor
  · intro ops s dst d v res hrun hd hv
    have G := ginv_run ops initState s ginv_init hrun
    have hnxt : d.m_counter ≠ s.next := by
      intro he
      have hlt := G.freshh (dst, d) (mem_of_lookupk hd)
      rw [he] at hlt
      exact absurd hlt (Nat.lt_irrefl _)
    exact rawAssign_spec.1 s dst d v res hd hv hnxt
  · exact rawAssign_spec.2

/-- Witness for the quantified part of C6: raw-assigning a null pointer to
a concrete sole owner releases its resource and attaches a fresh zero
counter. -/
theorem C6_witness :
    run initState [Op.construct 0 (some 7)] =
      some (State.mk [(0, ⟨some 7, 0⟩)] [(0, 1)] 1 [] []) ∧
    lookupk 0 (State.mk [(0, ⟨some 7, 0⟩)] [(0, 1)] 1 [] []).handles = some ⟨some 7, 0⟩ ∧
    lookupk 0 (State.mk [(0, ⟨some 7, 0⟩)] [(0, 1)] 1 [] []).counters = some 1 ∧
    ∃ s1, step (State.mk [(0, ⟨some 7, 0⟩)] [(0, 1)] 1 [] []) (Op.rawAssign 0 none) = some s1 ∧
      lookupk 0 s1.handles = some ⟨none, 1⟩ ∧
      lookupk 1 s1.counters = some (if (none : Option Nat).isSome then 1 else 0) ∧
      s1.next = 2 ∧
      (ctrDec 1 = 0 →
        lookupk 0 s1.counters = none ∧
        s1.freedCounters = [0] ∧
        s1.freedResources = [7]) ∧
      (ctrDec 1 ≠ 0 →
        lookupk 0 s1.counters = some (ctrDec 1) ∧
        s1.freedCounters = [] ∧
        s1.freedResources = []) :=
  ⟨rfl, rfl, rfl,
   C6_raw_assign.1 [Op.construct 0 (some 7)] _ 0 ⟨some 7, 0⟩ 1 none rfl rfl rfl⟩

/-- Claim C4: copy-assignment between two handles that alias the identical
(resource, counter) pair is a no-op: the whole state, in particular every
reference count, resource pointer and counter reference, is unchanged and
nothing is released. -/
theorem C4_alias_assign_noop (s : State) (dst src : Nat) (d o : Handle)
    (hd : lookupk dst s.handles = some d)
    (ho : lookupk src s.handles = some o)
    (hres : d.resource_ = o.resource_)
    (hctr : d.m_counter = o.m_counter) :
    step s (Op.copyAssign dst src) = some s := by
  simp only [step, hd, ho, if_pos (And.intro hres hctr)]

/-- Witness for C4: self-assignment of a live handle in a concrete state
leaves the state unchanged. -/
theorem C4_witness :
    lookupk 0 (State.mk [(0, ⟨some 7, 0⟩)] [(0, 1)] 1 [] []).handles =
      some ⟨some 7, 0⟩ ∧
    step (State.mk [(0, ⟨some 7, 0⟩)] [(0, 1)] 1 [] []) (Op.copyAssign 0 0) =
      some (State.mk [(0, ⟨some 7, 0⟩)] [(0, 1)] 1 [] []) :=
  ⟨rfl, C4_alias_assign_noop _ 0 0 ⟨some 7, 0⟩ ⟨some 7, 0⟩ rfl rfl rfl rfl⟩

/-- Claim C7: decrementing a zero counter wraps to 2^32 - 1, the unsigned
representation of -1 (adding 1 back gives 0 modulo 2^32); for positive
counts below 2^32 decrement yields count - 1; increment yields count + 1
whenever that does not overflow, and always yields count + 1 modulo 2^32. -/
theorem C7_counter_arith :
    ctrDec 0 = WORD - 1 ∧ (ctrDec 0 + 1) % WORD = 0 ∧
    (∀ v, 0 < v → v < WORD → ctrDec v = v - 1) ∧
    (∀ v, v + 1 < WORD → ctrInc v = v + 1) ∧
    (∀ v, Nat.ModEq WORD (ctrInc v) (v + 1)) := by
  refine ⟨ctrDec_zero, by decide, fun v h1 h2 => ctrDec_of_pos h1 h2,
    fun v h => ctrInc_of_lt h, fun v => ?_⟩
  show ctrInc v % WORD = (v + 1) % WORD
  exact Nat.mod_mod_of_dvd _ dvd_rfl

/-- Witness for C7: the quantified parts evaluated at count 1. -/
theorem C7_witness : ctrDec 1 = 0 ∧ ctrInc 1 = 2 :=
  ⟨C7_counter_arith.2.2.1 1 (by decide) (by decide),
   C7_counter_arith.2.2.2.1 1 (by decide)⟩

/-- Claim C8: Detach() is a no-op: for every live handle in every state it
leaves the whole state (resource pointer, counter reference, counter value,
freed logs) unchanged and releases nothing. -/
theorem C8_detach_noop (s : State) (h : Nat) (d : Handle)
    (hh : lookupk h s.handles = some d) :
    step s (Op.detach h) = some s := by
  simp only [step, hh]

/-- Witness for C8: Detach on a concrete live handle. -/
theorem C8_witness :
    lookupk 0 (State.mk [(0, ⟨some 7, 0⟩)] [(0, 1)] 1 [] []).handles =
      some ⟨some 7, 0⟩ ∧
    step (State.mk [(0, ⟨some 7, 0⟩)] [(0, 1)] 1 [] []) (Op.detach 0) =
      some (State.mk [(0, ⟨some 7, 0⟩)] [(0, 1)] 1 [] []) :=
  ⟨rfl, C8_detach_noop _ 0 ⟨some 7, 0⟩ rfl⟩

/-- Claim C9: destroying a handle whose counter holds 0 wraps the unsigned
counter to 2^32 - 1, so the post-decrement zero test fails and the release
branch (deleting counter and resource) is not taken. -/
theorem C9_destruct_zero_wraps (s : State) (h : Nat) (d : Handle)
    (hh : lookupk h s.handles = some d)
    (hv : lookupk d.m_counter s.counters = some 0) :
    ∃ s1, step s (Op.destruct h) = some s1 ∧
      lookupk h s1.handles = none ∧
      lookupk d.m_counter s1.counters = some (WORD - 1) ∧
      s1.freedCounters = s.freedCounters ∧
      s1.freedResources = s.freedResources := by
  refine ⟨{ s with handles := erasek h s.handles, counters := (d.m_counter, ctrDec 0) :: erasek d.m_counter s.counters }, ?_, ?_, ?_, rfl, rfl⟩
  · simp only [step, hh, releaseStep, hv, if_neg ctrDec_zero_ne]
  · exact lookupk_erasek_self _ _
  · rw [lookupk_cons, if_pos rfl, ctrDec_zero]

/-- Witness for C9: destroying a handle constructed from a null resource
(count 0) leaves its counter alive at 2^32 - 1. -/
theorem C9_witness :
    lookupk 0 (State.mk [(0, ⟨none, 0⟩)] [(0, 0)] 1 [] []).handles =
      some ⟨none, 0⟩ ∧
    lookupk 0 (State.mk [(0, ⟨none, 0⟩)] [(0, 0)] 1 [] []).counters = some 0 ∧
    ∃ s1, step (State.mk [(0, ⟨none, 0⟩)] [(0, 0)] 1 [] []) (Op.destruct 0) = some s1 ∧
      lookupk 0 s1.handles = none ∧
      lookupk 0 s1.counters = some (WORD - 1) ∧
      s1.freedCounters = [] ∧
      s1.freedResources = [] :=
  ⟨rfl, rfl, C9_destruct_zero_wraps _ 0 ⟨none, 0⟩ rfl rfl⟩

/-- Claim C10: copy-assignment between two distinct null-resource handles
with different counters does not trigger the alias guard; the assignee's
zero counter wraps to 2^32 - 1 and is not released, the source's counter
is adopted without increment, and afterwards both handles share the
source's counter, which still reads 0. -/
theorem C10_null_null_assign (s : State) (dst src : Nat) (d o : Handle)
    (hd : lookupk dst s.handles = some d)
    (ho : lookupk src s.handles = some o)
    (hdres : d.resource_ = none) (hores : o.resource_ = none)
    (hne : d.m_counter ≠ o.m_counter)
    (hv : lookupk d.m_counter s.counters = some 0)
    (hw : lookupk o.m_counter s.counters = some 0) :
    ∃ s1, step s (Op.copyAssign dst src) = some s1 ∧
      lookupk dst s1.handles = some o ∧
      lookupk d.m_counter s1.counters = some (WORD - 1) ∧
      lookupk o.m_counter s1.counters = some 0 ∧
      s1.freedCounters = s.freedCounters ∧
      s1.freedResources = s.freedResources ∧
      GetReferenceCount s1 dst = some 0 ∧
      GetReferenceCount s1 src = some 0 := by
  have hguard : ¬(d.resource_ = o.resource_ ∧ d.m_counter = o.m_counter) :=
    fun hc => hne hc.2
  have hds : dst ≠ src := by
    intro he
    rw [he, ho] at hd
    exact hne (congrArg Handle.m_counter (Option.some.inj hd)).symm
  have hno : ¬(o.resource_.isSome = true) := by
    rw [hores]
    exact Bool.false_ne_true
  have hcl : lookupk o.m_counter
      ((d.m_counter, ctrDec 0) :: erasek d.m_counter s.counters) = some 0 := by
    rw [lookupk_cons, if_neg hne, lookupk_erasek_ne _ (fun he => hne he.symm), hw]
  refine ⟨{ s with handles := (dst, o) :: erasek dst s.handles, counters := (d.m_counter, ctrDec 0) :: erasek d.m_counter s.counters }, ?_, ?_, ?_, hcl, rfl, rfl, ?_, ?_⟩
  · have hrel : releaseStep s d.m_counter d.resource_ = some { s with counters := (d.m_counter, ctrDec 0) :: erasek d.m_counter s.counters } := by
      simp only [releaseStep, hv, if_neg ctrDec_zero_ne]
    simp only [step, hd, ho, if_neg hguard, hrel]
    rw [if_neg hno]
  · rw [lookupk_cons, if_pos rfl]
  · rw [lookupk_cons, if_pos rfl, ctrDec_zero]
  · show GetReferenceCount _ dst = some 0
    unfold GetReferenceCount
    rw [lookupk_cons, if_pos rfl]
    exact hcl
  · show GetReferenceCount _ src = some 0
    unfold GetReferenceCount
    rw [lookupk_cons, if_neg hds, lookupk_erasek_ne _ (fun he => hds he.symm), ho]
    exact hcl

/-- Counterexample to claim C1 as stated: construct a handle from a null
resource (count 0), then copy-construct a second handle from it.  The
copy constructor increments unconditionally, so the shared count becomes
1 while the claimed invariant (null handles contribute nothing) demands
0. -/
theorem C1_counterexample :
    run initState [Op.construct 0 none, Op.copyConstruct 1 0] =
      some ⟨[(1, ⟨none, 0⟩), (0, ⟨none, 0⟩)], [(0, 1)], 1, [], []⟩ ∧
    ¬ specCountInvariant ⟨[(1, ⟨none, 0⟩), (0, ⟨none, 0⟩)], [(0, 1)], 1, [], []⟩ := by
  constructor
  · rfl
  · intro hcl
    have h1 := hcl 0 1 rfl (by decide)
    exact absurd h1 (by decide)

/-- Claim C1, amended: over every operation sequence (of fewer than 2^32
steps) in which every constructed or raw-assigned resource is non-null,
the count of every live counter equals the exact number of live handles
pointing at it; the null-resource exception of the original claim is
dropped because copy-construction increments the counter even for a null
resource. -/
theorem C1_amended_invariant (ops : List Op) (s : State)
    (hnn : ∀ op ∈ ops, op.nonNull) (hlen : ops.length < WORD)
    (hrun : run initState ops = some s) :
    ∀ c v, lookupk c s.counters = some v → v = ptrCount c s.handles := by
  have hlen0 : initState.handles.length = 0 := rfl
  have N := ninv_run ops initState s ginv_init ninv_init hnn (by omega) hrun
  exact fun c v hv => N.cnt _ (mem_of_lookupk hv)

/-- Witness for the amended C1: a non-null construct followed by a
copy-construct yields a counter at 2 with exactly 2 live handles. -/
theorem C1_witness :
    (∀ op ∈ [Op.construct 0 (some 5), Op.copyConstruct 1 0], op.nonNull) ∧
    ([Op.construct 0 (some 5), Op.copyConstruct 1 0] : List Op).length < WORD ∧
    run initState [Op.construct 0 (some 5), Op.copyConstruct 1 0] =
      some ⟨[(1, ⟨some 5, 0⟩), (0, ⟨some 5, 0⟩)], [(0, 2)], 1, [], []⟩ ∧
    2 = ptrCount 0 [(1, (⟨some 5, 0⟩ : Handle)), (0, ⟨some 5, 0⟩)] := by
  have hops : ∀ op ∈ [Op.construct 0 (some 5), Op.copyConstruct 1 0], op.nonNull := by
    intro op hop
    rcases List.mem_cons.1 hop with h1 | h1
    · rw [h1]; exact rfl
    · rcases List.mem_cons.1 h1 with h2 | h2
      · rw [h2]; exact trivial
      · exact absurd h2 (List.not_mem_nil op)
  refine ⟨hops, by decide, rfl, ?_⟩
  exact C1_amended_invariant [Op.construct 0 (some 5), Op.copyConstruct 1 0]
    ⟨[(1, ⟨some 5, 0⟩), (0, ⟨some 5, 0⟩)], [(0, 2)], 1, [], []⟩
    hops (by decide) rfl 0 2 rfl

/-- Claim C5: in any reachable state, constructing a handle from any raw
pointer (null included) allocates a fresh counter shared with no other
handle and stores the resource pointer; the counter holds 1 for a non-null
resource and 0 for null, so a null-constructed handle reports reference
count 0 and a null pointer. -/
theorem C5_construct (ops : List Op) (s : State) (h : Nat) (res : Option Nat)
    (hrun : run initState ops = some s)
    (hfresh : h ∉ keysOf s.handles) :
    ∃ s1, step s (Op.construct h res) = some s1 ∧
      lookupk h s1.handles = some ⟨res, s.next⟩ ∧
      lookupk s.next s1.counters = some (if res.isSome then 1 else 0) ∧
      lookupk s.next s.counters = none ∧
      (∀ p ∈ s.handles, p.2.m_counter ≠ s.next) ∧
      GetReferenceCount s1 h = some (if res.isSome then 1 else 0) ∧
      GetPointer s1 h = some res := by
  have H := ginv_run ops initState s ginv_init hrun
  refine ⟨{ s with handles := (h, ⟨res, s.next⟩) :: s.handles, counters := (s.next, if res.isSome then 1 else 0) :: s.counters, next := s.next + 1 }, ?_, ?_, ?_, ?_, ?_, ?_, ?_⟩
  · rw [step, if_neg hfresh]
  · rw [lookupk_cons, if_pos rfl]
  · rw [lookupk_cons, if_pos rfl]
  · exact lookupk_eq_none (not_mem_keysOf_of_lt H.freshc)
  · exact fun p hp he => Nat.lt_irrefl s.next (he ▸ H.freshh p hp)
  · show GetReferenceCount _ h = _
    unfold GetReferenceCount
    rw [lookupk_cons, if_pos rfl]
    show lookupk s.next ((s.next, if res.isSome = true then 1 else 0) :: s.counters) = _
    rw [lookupk_cons, if_pos rfl]
  · show GetPointer _ h = _
    unfold GetPointer
    rw [lookupk_cons, if_pos rfl]
    rfl

/-- Witness for C5: constructing a null handle in the initial state yields
count 0 and a null pointer on a fresh counter. -/
theorem C5_witness :
    run initState [] = some initState ∧
    (0 : Nat) ∉ keysOf initState.handles ∧
    ∃ s1, step initState (Op.construct 0 none) = some s1 ∧
      lookupk 0 s1.handles = some ⟨none, 0⟩ ∧
      lookupk 0 s1.counters = some (if (none : Option Nat).isSome then 1 else 0) ∧
      lookupk 0 initState.counters = none ∧
      (∀ p ∈ initState.handles, p.2.m_counter ≠ 0) ∧
      GetReferenceCount s1 0 = some (if (none : Option Nat).isSome then 1 else 0) ∧
      GetPointer s1 0 = some none :=
  ⟨rfl, List.not_mem_nil 0, C5_construct [] initState 0 none rfl (List.not_mem_nil 0)⟩

/-- Witness for C10: two null handles freshly constructed, then assigned. -/
theorem C10_witness :
    lookupk 0 (State.mk [(1, ⟨none, 1⟩), (0, ⟨none, 0⟩)] [(1, 0), (0, 0)] 2 [] []).handles =
      some ⟨none, 0⟩ ∧
    lookupk 1 (State.mk [(1, ⟨none, 1⟩), (0, ⟨none, 0⟩)] [(1, 0), (0, 0)] 2 [] []).handles =
      some ⟨none, 1⟩ ∧
    ∃ s1, step (State.mk [(1, ⟨none, 1⟩), (0, ⟨none, 0⟩)] [(1, 0), (0, 0)] 2 [] [])
        (Op.copyAssign 0 1) = some s1 ∧
      lookupk 0 s1.handles = some ⟨none, 1⟩ ∧
      lookupk 0 s1.counters = some (WORD - 1) ∧
      lookupk 1 s1.counters = some 0 ∧
      s1.freedCounters = [] ∧
      s1.freedResources = [] ∧
      GetReferenceCount s1 0 = some 0 ∧
      GetReferenceCount s1 1 = some 0 :=
  ⟨rfl, rfl, C10_null_null_assign _ 0 1 ⟨none, 0⟩ ⟨none, 1⟩ rfl rfl rfl rfl
    (by decide) rfl rfl⟩

end SmartPtr
